import Mathlib

set_option maxRecDepth 100000

/-!
Shallow embedding of a regex-to-DFA compiler (infix regex → postfix →
Thompson NFA → subset-construction DFA → transition-table matcher).

Python sets of state indices are modelled as duplicate-free strictly
sorted `List Nat` values (the canonical representative of a finite set of
naturals, so Python's set/frozenset equality coincides with list
equality); Python lists are `List`; operations that can raise
`IndexError` (indexing an empty stack or an out-of-range table entry)
return `Option`, with `none` standing for the raised exception.  Loops
whose termination depends on data (the epsilon closure DFS and the
subset-construction worklist) are written with an explicit fuel parameter
large enough to be proven sufficient for well-formed automata.
-/

namespace Regex

/-- `NFA.ALPHABET_SIZE` in the source: 256 input symbols; index 256 is the
epsilon slot, so NFA rows have 257 entries. -/
def ALPHABET_SIZE : Nat := 256

/-- Update the element at index `i` of a list in place (if in range);
models Python `l[i] = f(l[i])` / `l[i].add(x)` on a valid index. -/
def modifyIdx {α : Type} (f : α → α) : List α → Nat → List α
  | [], _ => []
  | a :: l, 0 => f a :: l
  | a :: l, i + 1 => a :: modifyIdx f l i

/-- Python `s.add(x)`: insert into a canonical sorted duplicate-free
list, keeping it canonical. -/
def sinsert (x : Nat) : List Nat → List Nat
  | [] => [x]
  | y :: l => if x < y then x :: y :: l else if x = y then y :: l else y :: sinsert x l

/-- Python `s.union(t)` on canonical sorted lists. -/
def sunion (a b : List Nat) : List Nat := a.foldr sinsert b

/-- Union of a family of sets (the accumulating `s = s.union(...)` loops
of the source, which start from `set()`). -/
def bigUnion (ls : List (List Nat)) : List Nat := ls.foldr sunion []

/-- `NFA`: states `0 .. num_states-1`, `delta` a row per state with
`ALPHABET_SIZE + 1` entries (entry 256 holds the epsilon transitions). -/
structure NFA where
  num_states : Nat
  delta : List (List (List Nat))
  start_state : Nat
  final_state : Nat
  deriving DecidableEq

/-- A fresh all-empty transition row (`[set() for _ in range(257)]`). -/
def emptyRow : List (List Nat) := List.replicate (ALPHABET_SIZE + 1) []

/-- Row of `delta` for state `q` (out-of-range reads give `[]`, which only
happens where Python would raise). -/
def nrow (n : NFA) (q : Nat) : List (List Nat) := n.delta.getD q []

/-- The set `delta[q][c]` (`[]` when out of range). -/
def deltaSet (n : NFA) (q c : Nat) : List Nat := (nrow n q).getD c []

/-- `NFA.single_char_nfa`: two states, one transition on `ord char` from
state 0 to state 1. -/
def single_char_nfa (c : Char) : NFA :=
  { num_states := 2
    delta := [modifyIdx (fun s => sinsert 1 s) emptyRow c.toNat, emptyRow]
    start_state := 0
    final_state := 1 }

/-- `NFA.kleene_star`: add an epsilon transition from the final state to
the start state, then make the start state the new final state. -/
def kleene_star (n : NFA) : NFA :=
  { n with
    delta := modifyIdx
      (fun row => modifyIdx (fun s => sinsert n.start_state s) row ALPHABET_SIZE)
      n.delta n.final_state
    final_state := n.start_state }

/-- Relabel a row of `other`'s table by offsetting every destination by
`k` (the inner loop `s.add(k + self.num_states)` of the source); adding a
constant keeps the list canonical. -/
def offsetRow (k : Nat) (row : List (List Nat)) : List (List Nat) :=
  row.map (fun s => s.map (fun q => q + k))

/-- `NFA.concatenate`: append `other`'s rows (destinations offset by
`self.num_states`), add an epsilon transition from `self`'s final state to
`other`'s offset start state; new final is `other`'s offset final. -/
def concatenate (a b : NFA) : NFA :=
  { num_states := a.num_states + b.num_states
    delta := modifyIdx
      (fun row => modifyIdx (fun s => sinsert (a.num_states + b.start_state) s) row ALPHABET_SIZE)
      (a.delta ++ b.delta.map (offsetRow a.num_states)) a.final_state
    start_state := a.start_state
    final_state := a.num_states + b.final_state }

/-- `NFA.union`: append `other`'s rows offset as in `concatenate`, add
epsilon transitions from `self`'s start to `other`'s offset start and from
`self`'s final to `other`'s offset final; new final is `other`'s offset
final, start is unchanged. -/
def union (a b : NFA) : NFA :=
  { num_states := a.num_states + b.num_states
    delta := modifyIdx
      (fun row => modifyIdx (fun s => sinsert (a.num_states + b.final_state) s) row ALPHABET_SIZE)
      (modifyIdx
        (fun row => modifyIdx (fun s => sinsert (a.num_states + b.start_state) s) row ALPHABET_SIZE)
        (a.delta ++ b.delta.map (offsetRow a.num_states)) a.start_state)
      a.final_state
    start_state := a.start_state
    final_state := a.num_states + b.final_state }

/-- `NFA.epsilon_closure`'s DFS loop.  The Lean list plays the Python
stack with its head as the stack top; the worklist order differs from
CPython's (set iteration order), which cannot affect the resulting set.
`none` models fuel exhaustion, which is proven unreachable for well-formed
automata at the fuel used by `epsilon_closure`. -/
def epsilonClosureLoop (n : NFA) (fuel : Nat) (stack : List Nat) (closure : List Nat) :
    Option (List Nat) :=
  match stack with
  | [] => some closure
  | current :: stack =>
    match fuel with
    | 0 => none
    | fuel + 1 =>
      if current ∈ closure then
        epsilonClosureLoop n fuel stack closure
      else
        epsilonClosureLoop n fuel
          (((deltaSet n current ALPHABET_SIZE).filter (fun x => decide (x ∉ closure))) ++ stack)
          (sinsert current closure)

/-- Fuel sufficient for the DFS on a well-formed NFA (proven below). -/
def closureFuel (n : NFA) : Nat := (n.num_states + 1) * (n.num_states + 1)

/-- `NFA.epsilon_closure`. -/
def epsilon_closure (n : NFA) (p : Nat) : List Nat :=
  (epsilonClosureLoop n (closureFuel n) [p] []).getD []

/-- The per-symbol successor set of the subset construction: the union,
over every NFA state `q` in the current set, of the epsilon closure of
every destination of `q` on symbol `c` (the inner `for` loops of
`to_dfa`). -/
def stepSet (n : NFA) (S : List Nat) (c : Nat) : List Nat :=
  bigUnion (S.map (fun q => bigUnion ((deltaSet n q c).map (fun r => epsilon_closure n r))))

/-- The worklist loop of `to_dfa`.  `map` is the Python `state_map`: its
i-th element is the NFA-state-set assigned DFA index i (dict insertion
order is exactly first-discovery order).  On discovering a new set its 256
successor sets are appended to the queue, as in the source. -/
def toDfaLoop (n : NFA) (fuel : Nat) (queue map : List (List Nat)) :
    Option (List (List Nat)) :=
  match queue with
  | [] => some map
  | cs :: queue =>
    match fuel with
    | 0 => none
    | fuel + 1 =>
      if cs ∈ map then
        toDfaLoop n fuel queue map
      else
        toDfaLoop n fuel (queue ++ (List.range ALPHABET_SIZE).map (stepSet n cs)) (map ++ [cs])

/-- Fuel sufficient for the worklist on a well-formed NFA (proven below). -/
def toDfaFuel (n : NFA) : Nat := (ALPHABET_SIZE + 1) * 2 ^ n.num_states + 2

/-- Index of a state-set in `state_map` (Python dict lookup; keys are
distinct, so the first match is the binding). -/
def idxOf (m : List (List Nat)) (S : List Nat) : Nat :=
  match m with
  | [] => 0
  | T :: rest => if T = S then 0 else idxOf rest S + 1

/-- `DFA`: 256-entry rows, one destination per (state, symbol). -/
structure DFA where
  num_states : Nat
  delta : List (List Nat)
  start_state : Nat
  final_states : List Nat
  deriving DecidableEq

/-- `NFA.to_dfa`.  The loop stored each discovered set's raw successor
row `delta[i][c] = stepSet n m[i] c` before the remap; since `stepSet` is
a pure function of `(n, m[i], c)` the remapped table
`state_map[frozenset(delta[i][char])]` is recomputed here directly from
`m`.  A DFA state is accepting iff its set contains the NFA final state. -/
def to_dfa (n : NFA) : Option DFA :=
  match toDfaLoop n (toDfaFuel n) [epsilon_closure n n.start_state] [] with
  | none => none
  | some m =>
    some { num_states := m.length
           delta := m.map (fun S =>
             (List.range ALPHABET_SIZE).map (fun c => idxOf m (stepSet n S c)))
           start_state := 0
           final_states := (List.range m.length).filter
             (fun i => decide (n.final_state ∈ m.getD i [])) }

/-- `DFA.accept`'s loop: `current_state = delta[current_state][ord(char)]`;
an out-of-range lookup (state row missing, or a code point ≥ 256) is the
Python `IndexError`, modelled as `none`. -/
def acceptFrom (d : DFA) : Nat → List Char → Option Nat
  | cur, [] => some cur
  | cur, ch :: rest =>
    match d.delta[cur]?.bind (fun row => row[ch.toNat]?) with
    | none => none
    | some nxt => acceptFrom d nxt rest

/-- `DFA.accept`: walk the table from the start state and test membership
in `final_states`. -/
def accept (d : DFA) (s : String) : Option Bool :=
  (acceptFrom d d.start_state s.data).map (fun q => decide (q ∈ d.final_states))

/-- The insertion pass of `preprocess`, after the unguarded `regex[0]`:
a `.` goes between `prev` and `ch` exactly when `ch ∉ ")|*"` and
`prev ∉ "|("`. -/
def preprocessAux (prev : Char) : List Char → List Char
  | [] => []
  | ch :: rest =>
    (if ch ∉ [')', '|', '*'] ∧ prev ∉ ['|', '('] then ['.', ch] else [ch]) ++
      preprocessAux ch rest

/-- `preprocess`: `regex[0]` raises `IndexError` on the empty pattern
(`none`); otherwise the first character is kept and the rest get explicit
concatenation dots. -/
def preprocess : List Char → Option (List Char)
  | [] => none
  | c :: rest => some (c :: preprocessAux c rest)

/-- The `precedence` dict.  Only `|`, `.`, `*` are ever looked up (the
operator branch guards on membership and only operators and `(` are
pushed), so the default branch is unreachable and its value is fixed to
`*`'s precedence. -/
def prec : Char → Nat
  | '|' => 0
  | '.' => 1
  | _ => 2

/-- The operator branch's inner `while`: pop operators (never `(`) of
precedence ≥ `p`; returns (emitted operators in pop order, rest). -/
def popGE (p : Nat) : List Char → List Char × List Char
  | [] => ([], [])
  | top :: rest =>
    if top ≠ '(' ∧ p ≤ prec top then
      let (e, r) := popGE p rest
      (top :: e, r)
    else ([], top :: rest)

/-- The `)` branch's inner `while`: pop and emit until `(`, discarding the
`(`.  On an empty stack Python evaluates `stack[-1]` and raises
`IndexError`: `none`. -/
def popUntilParen : List Char → Option (List Char × List Char)
  | [] => none
  | top :: rest =>
    if top = '(' then some ([], rest)
    else
      match popUntilParen rest with
      | none => none
      | some (e, r) => some (top :: e, r)

/-- The `for ch in regex` loop of `infix_to_postfix`, with the trailing
drain of the operator stack (`out ++ stack`: the stack is popped
top-first, i.e. head-first). -/
def shuntLoop : List Char → List Char → List Char → Option (List Char)
  | [], stack, out => some (out ++ stack)
  | ch :: rest, stack, out =>
    if ch = '(' then shuntLoop rest (ch :: stack) out
    else if ch ∉ ['|', '.', '*'] ∧ ch ≠ ')' then shuntLoop rest stack (out ++ [ch])
    else if ch ∈ ['|', '.', '*'] then
      let (e, st) := popGE (prec ch) stack
      shuntLoop rest (ch :: st) (out ++ e)
    else
      match popUntilParen stack with
      | none => none
      | some (e, st) => shuntLoop rest st (out ++ e)

/-- `infix_to_postfix` (suffix `_fn` avoids a reserved word). -/
def infix_to_postfix_fn (regex : String) : Option (List Char) := do
  let pre ← preprocess regex.data
  shuntLoop pre [] []

/-- The token loop of `postfix_to_nfa` over the explicit NFA stack (head
of the list = top of the Python stack; combinators mutate the element
below the popped one in place, modelled by replacing it). -/
def nfaLoop : List Char → List NFA → Option (List NFA)
  | [], stack => some stack
  | ch :: rest, stack =>
    if ch ∉ ['|', '.', '*'] then nfaLoop rest (single_char_nfa ch :: stack)
    else if ch = '*' then
      match stack with
      | top :: s => nfaLoop rest (kleene_star top :: s)
      | [] => none
    else if ch = '|' then
      match stack with
      | b :: a :: s => nfaLoop rest (union a b :: s)
      | _ => none
    else
      match stack with
      | b :: a :: s => nfaLoop rest (concatenate a b :: s)
      | _ => none

/-- `postfix_to_nfa`: run the token loop from an empty stack and return
the final `stack.pop()` (`IndexError`, i.e. `none`, on an empty stack). -/
def postfix_to_nfa (pf : List Char) : Option NFA :=
  match nfaLoop pf [] with
  | some (top :: _) => some top
  | _ => none

/-- `dfa_from_regex`: the full pipeline. -/
def dfa_from_regex (regex : String) : Option DFA := do
  let pf ← infix_to_postfix_fn regex
  let nfa ← postfix_to_nfa pf
  to_dfa nfa

/-- The NFA validity invariant of the spec (§3): the table has one row per
state, rows span the alphabet plus epsilon, every state index appearing in
`delta` is `< num_states`, and the single start and final states are
`< num_states`.  The last conjunct states that each table entry is a
canonically represented set (strictly sorted), which is how this embedding
renders "the entry is a Python set of state indices". -/
def Valid (n : NFA) : Prop :=
  n.delta.length = n.num_states ∧
  (∀ row ∈ n.delta, row.length = ALPHABET_SIZE + 1) ∧
  (∀ row ∈ n.delta, ∀ s ∈ row, ∀ q ∈ s, q < n.num_states) ∧
  n.start_state < n.num_states ∧
  n.final_state < n.num_states ∧
  (∀ row ∈ n.delta, ∀ s ∈ row, List.Sorted (· < ·) s)

instance (n : NFA) : Decidable (Valid n) := by
  unfold Valid
  infer_instance

/-- One epsilon edge of the NFA. -/
def epsStep (n : NFA) (a b : Nat) : Prop := b ∈ deltaSet n a ALPHABET_SIZE

/-- Modelled from the spec (glossary): a state `q` is in the epsilon
closure of `p` iff it is reachable from `p` using only epsilon
transitions, including `p` itself. -/
def epsReaches (n : NFA) : Nat → Nat → Prop := Relation.ReflTransGen (epsStep n)

/-- Modelled from the spec (glossary): the epsilon closure of `p` as the
set of epsilon-reachable states. -/
def closureSpec (n : NFA) (p : Nat) : Set Nat := {q | epsReaches n p q}

/-- Modelled from the spec (§4.3 step 3): the successor of a state set on
a symbol is the union, over every NFA state in the set, of the epsilon
closures of its direct destinations on that symbol. -/
def stepSpecSet (n : NFA) (S : Set Nat) (c : Nat) : Set Nat :=
  {x | ∃ q ∈ S, ∃ r ∈ deltaSet n q c, epsReaches n r x}

/-- Modelled from the spec (§8, NFA/DFA equivalence): the NFA accepts a
string under epsilon-closure simulation iff, starting from the epsilon
closure of the start state and stepping by each symbol in turn, the final
state set contains the NFA's final state. -/
def nfaAcceptsSpec (n : NFA) (s : List Char) : Prop :=
  n.final_state ∈ s.foldl (fun S ch => stepSpecSet n S ch.toNat) (closureSpec n n.start_state)

/-- The executable epsilon-closure simulation of the NFA on a string
(used to relate the DFA walk to `nfaAcceptsSpec`). -/
def simRun (n : NFA) (s : List Char) : List Nat :=
  s.foldl (fun S ch => stepSet n S ch.toNat) (epsilon_closure n n.start_state)

/-- Modelled from the spec (§4.1 preprocessing pass): insert `.` between
adjacent characters `A B` exactly when `B` is none of `)` `|` `*` and `A`
is neither `|` nor `(`. -/
def preSpec (prev : Char) : List Char → List Char
  | [] => []
  | b :: rest =>
    (if b ∉ [')', '|', '*'] ∧ prev ∉ ['|', '('] then ['.', b] else [b]) ++ preSpec b rest

end Regex

namespace Regex

/-! ### Canonical sorted-list sets -/

theorem mem_sinsert {a x : Nat} {l : List Nat} : a ∈ sinsert x l ↔ a = x ∨ a ∈ l := by
  induction l with
  | nil => simp [sinsert]
  | cons y l ih =>
    simp only [sinsert]
    split
    · simp [List.mem_cons]
    · split
      · rename_i h1 h2
        subst h2
        simp [List.mem_cons]
      · simp only [List.mem_cons, ih]
        tauto

theorem sorted_sinsert {x : Nat} {l : List Nat} (h : l.Sorted (· < ·)) :
    (sinsert x l).Sorted (· < ·) := by
  induction l with
  | nil => simp [sinsert]
  | cons y l ih =>
    rw [List.sorted_cons] at h
    obtain ⟨hy, hl⟩ := h
    simp only [sinsert]
    split
    · rename_i h1
      rw [List.sorted_cons]
      refine ⟨?_, by rw [List.sorted_cons]; exact ⟨hy, hl⟩⟩
      intro b hb
      rcases List.mem_cons.mp hb with rfl | hb
      · exact h1
      · exact lt_trans h1 (hy b hb)
    · split
      · rw [List.sorted_cons]; exact ⟨hy, hl⟩
      · rename_i h1 h2
        rw [List.sorted_cons]
        refine ⟨?_, ih hl⟩
        intro b hb
        rcases mem_sinsert.mp hb with rfl | hb
        · omega
        · exact hy b hb

theorem mem_sunion {a : Nat} {s t : List Nat} : a ∈ sunion s t ↔ a ∈ s ∨ a ∈ t := by
  induction s with
  | nil => simp [sunion]
  | cons x s ih =>
    simp only [sunion, List.foldr_cons] at ih ⊢
    rw [mem_sinsert, ih, List.mem_cons]
    tauto

theorem sorted_sunion {s t : List Nat} (h : t.Sorted (· < ·)) :
    (sunion s t).Sorted (· < ·) := by
  induction s with
  | nil => exact h
  | cons x s ih => exact sorted_sinsert ih

theorem mem_bigUnion {a : Nat} {ls : List (List Nat)} :
    a ∈ bigUnion ls ↔ ∃ l ∈ ls, a ∈ l := by
  induction ls with
  | nil => simp [bigUnion]
  | cons l ls ih =>
    simp only [bigUnion, List.foldr_cons] at ih ⊢
    rw [mem_sunion, ih]
    simp

theorem sorted_bigUnion {ls : List (List Nat)} : (bigUnion ls).Sorted (· < ·) := by
  induction ls with
  | nil => simp [bigUnion]
  | cons l ls ih => exact sorted_sunion ih

theorem sorted_map_add {l : List Nat} (k : Nat) (h : l.Sorted (· < ·)) :
    (l.map (fun q => q + k)).Sorted (· < ·) :=
  List.Pairwise.map _ (fun _ _ hab => by omega) h

theorem sorted_ext {l l' : List Nat} (hl : l.Sorted (· < ·)) (hl' : l'.Sorted (· < ·))
    (h : ∀ x, x ∈ l ↔ x ∈ l') : l = l' := by
  have ha : IsAntisymm Nat (· < ·) := ⟨fun a b h1 h2 => absurd h1 (asymm h2)⟩
  refine List.eq_of_perm_of_sorted ?_ hl hl'
  refine List.perm_of_nodup_nodup_toFinset_eq hl.nodup hl'.nodup ?_
  ext x
  simp only [List.mem_toFinset]
  exact h x

theorem sorted_length_le {l : List Nat} {k : Nat} (hs : l.Sorted (· < ·))
    (hb : ∀ x ∈ l, x < k) : l.length ≤ k := by
  calc l.length = l.toFinset.card := (List.toFinset_card_of_nodup hs.nodup).symm
    _ ≤ (Finset.range k).card := by
        refine Finset.card_le_card ?_
        intro x hx
        rw [List.mem_toFinset] at hx
        rw [Finset.mem_range]
        exact hb x hx
    _ = k := Finset.card_range k

/-! ### `modifyIdx` -/

theorem modifyIdx_length {α : Type} (f : α → α) (l : List α) (i : Nat) :
    (modifyIdx f l i).length = l.length := by
  induction l generalizing i with
  | nil => rfl
  | cons a l ih =>
    cases i with
    | zero => rfl
    | succ i => simpa [modifyIdx] using ih i

theorem getElem?_modifyIdx {α : Type} (f : α → α) (l : List α) (i j : Nat) :
    (modifyIdx f l i)[j]? = if i = j then l[j]?.map f else l[j]? := by
  induction l generalizing i j with
  | nil => simp [modifyIdx]
  | cons a l ih =>
    cases i with
    | zero =>
      cases j with
      | zero => simp [modifyIdx]
      | succ j => simp [modifyIdx]
    | succ i =>
      cases j with
      | zero => simp [modifyIdx]
      | succ j =>
        simp only [modifyIdx, List.getElem?_cons_succ]
        rw [ih i j]
        by_cases h : i = j
        · simp [h]
        · simp [h, fun hc => h (Nat.succ_injective hc)]

end Regex

namespace Regex

theorem mem_modifyIdx {α : Type} {f : α → α} {l : List α} {i : Nat} {x : α}
    (h : x ∈ modifyIdx f l i) : x ∈ l ∨ ∃ y, l[i]? = some y ∧ x = f y := by
  induction l generalizing i with
  | nil => simp [modifyIdx] at h
  | cons a l ih =>
    cases i with
    | zero =>
      rcases List.mem_cons.mp h with rfl | h
      · exact Or.inr ⟨a, by simp, rfl⟩
      · exact Or.inl (List.mem_cons_of_mem _ h)
    | succ i =>
      rcases List.mem_cons.mp h with rfl | h
      · exact Or.inl (List.mem_cons_self _ _)
      · rcases ih h with h | ⟨y, hy, hxy⟩
        · exact Or.inl (List.mem_cons_of_mem _ h)
        · exact Or.inr ⟨y, by simpa using hy, hxy⟩

/-! ### Validity of the NFA combinators -/

/-- Three row-level facts preserved when an epsilon edge is inserted at
`delta[i][j]` (the shape of every in-place `add` in the source). -/
theorem rows_modify_sinsert {delta : List (List (List Nat))} (i j : Nat) {x m : Nat}
    (hx : x < m)
    (hL : ∀ row ∈ delta, row.length = ALPHABET_SIZE + 1)
    (hB : ∀ row ∈ delta, ∀ s ∈ row, ∀ q ∈ s, q < m)
    (hS : ∀ row ∈ delta, ∀ s ∈ row, List.Sorted (· < ·) s) :
    (∀ row ∈ modifyIdx (fun row => modifyIdx (fun s => sinsert x s) row j) delta i,
        row.length = ALPHABET_SIZE + 1) ∧
    (∀ row ∈ modifyIdx (fun row => modifyIdx (fun s => sinsert x s) row j) delta i,
        ∀ s ∈ row, ∀ q ∈ s, q < m) ∧
    (∀ row ∈ modifyIdx (fun row => modifyIdx (fun s => sinsert x s) row j) delta i,
        ∀ s ∈ row, List.Sorted (· < ·) s) := by
  have hrow : ∀ row ∈ modifyIdx (fun row => modifyIdx (fun s => sinsert x s) row j) delta i,
      (row ∈ delta) ∨ ∃ row₀ ∈ delta, row = modifyIdx (fun s => sinsert x s) row₀ j := by
    intro row hrowmem
    rcases mem_modifyIdx hrowmem with h | ⟨row₀, h₀, rfl⟩
    · exact Or.inl h
    · exact Or.inr ⟨row₀, List.getElem?_mem h₀, rfl⟩
  have hset : ∀ row₀ ∈ delta, ∀ s ∈ modifyIdx (fun s => sinsert x s) row₀ j,
      (s ∈ row₀) ∨ ∃ s₀ ∈ row₀, s = sinsert x s₀ := by
    intro row₀ h₀ s hs
    rcases mem_modifyIdx hs with h | ⟨s₀, hs₀, rfl⟩
    · exact Or.inl h
    · exact Or.inr ⟨s₀, List.getElem?_mem hs₀, rfl⟩
  refine ⟨?_, ?_, ?_⟩
  · intro row hrowmem
    rcases hrow row hrowmem with h | ⟨row₀, h₀, rfl⟩
    · exact hL row h
    · rw [modifyIdx_length]; exact hL row₀ h₀
  · intro row hrowmem s hs q hq
    rcases hrow row hrowmem with h | ⟨row₀, h₀, rfl⟩
    · exact hB row h s hs q hq
    · rcases hset row₀ h₀ s hs with h | ⟨s₀, hs₀, rfl⟩
      · exact hB row₀ h₀ s h q hq
      · rcases mem_sinsert.mp hq with rfl | hq
        · exact hx
        · exact hB row₀ h₀ s₀ hs₀ q hq
  · intro row hrowmem s hs
    rcases hrow row hrowmem with h | ⟨row₀, h₀, rfl⟩
    · exact hS row h s hs
    · rcases hset row₀ h₀ s hs with h | ⟨s₀, hs₀, rfl⟩
      · exact hS row₀ h₀ s h
      · exact sorted_sinsert (hS row₀ h₀ s₀ hs₀)

/-- Row facts for the appended, offset table built by `concatenate` and
`union` before their epsilon edges are added. -/
theorem rows_append_offset {a b : NFA} (hva : Valid a) (hvb : Valid b) :
    (∀ row ∈ a.delta ++ b.delta.map (offsetRow a.num_states),
        row.length = ALPHABET_SIZE + 1) ∧
    (∀ row ∈ a.delta ++ b.delta.map (offsetRow a.num_states),
        ∀ s ∈ row, ∀ q ∈ s, q < a.num_states + b.num_states) ∧
    (∀ row ∈ a.delta ++ b.delta.map (offsetRow a.num_states),
        ∀ s ∈ row, List.Sorted (· < ·) s) := by
  obtain ⟨-, haL, haB, -, -, haS⟩ := hva
  obtain ⟨-, hbL, hbB, -, -, hbS⟩ := hvb
  refine ⟨?_, ?_, ?_⟩
  · intro row hrow
    rcases List.mem_append.mp hrow with h | h
    · exact haL row h
    · rcases List.mem_map.mp h with ⟨row₀, h₀, rfl⟩
      rw [offsetRow, List.length_map]
      exact hbL row₀ h₀
  · intro row hrow s hs q hq
    rcases List.mem_append.mp hrow with h | h
    · exact Nat.lt_of_lt_of_le (haB row h s hs q hq) (Nat.le_add_right _ _)
    · rcases List.mem_map.mp h with ⟨row₀, h₀, rfl⟩
      rcases List.mem_map.mp hs with ⟨s₀, hs₀, rfl⟩
      rcases List.mem_map.mp hq with ⟨q₀, hq₀, rfl⟩
      have := hbB row₀ h₀ s₀ hs₀ q₀ hq₀
      omega
  · intro row hrow s hs
    rcases List.mem_append.mp hrow with h | h
    · exact haS row h s hs
    · rcases List.mem_map.mp h with ⟨row₀, h₀, rfl⟩
      rcases List.mem_map.mp hs with ⟨s₀, hs₀, rfl⟩
      exact sorted_map_add _ (hbS row₀ h₀ s₀ hs₀)

theorem valid_single_char (c : Char) : Valid (single_char_nfa c) := by
  have hrow : ∀ s ∈ emptyRow, s = ([] : List Nat) := by
    intro s hs
    exact List.eq_of_mem_replicate hs
  refine ⟨rfl, ?_, ?_, (by omega : (0 : Nat) < 2), (by omega : (1 : Nat) < 2), ?_⟩
  · intro row hrow'
    rcases List.mem_cons.mp hrow' with rfl | hrow'
    · rw [modifyIdx_length]; rfl
    · rcases List.mem_cons.mp hrow' with rfl | h
      · rfl
      · simp at h
  · intro row hrow' s hs q hq
    have hs' : s = [] ∨ s = [1] := by
      rcases List.mem_cons.mp hrow' with rfl | hrow'
      · rcases mem_modifyIdx hs with h | ⟨y, hy, rfl⟩
        · exact Or.inl (hrow _ h)
        · have : y = [] := hrow _ (List.getElem?_mem hy)
          subst this
          exact Or.inr rfl
      · rcases List.mem_cons.mp hrow' with rfl | h
        · exact Or.inl (hrow _ hs)
        · simp at h
    rcases hs' with rfl | rfl
    · simp at hq
    · show q < 2
      rcases List.mem_singleton.mp hq with rfl
      omega
  · intro row hrow' s hs
    have hs' : s = [] ∨ s = [1] := by
      rcases List.mem_cons.mp hrow' with rfl | hrow'
      · rcases mem_modifyIdx hs with h | ⟨y, hy, rfl⟩
        · exact Or.inl (hrow _ h)
        · have : y = [] := hrow _ (List.getElem?_mem hy)
          subst this
          exact Or.inr rfl
      · rcases List.mem_cons.mp hrow' with rfl | h
        · exact Or.inl (hrow _ hs)
        · simp at h
    rcases hs' with rfl | rfl
    · simp
    · simp

theorem valid_kleene_star {n : NFA} (h : Valid n) : Valid (kleene_star n) := by
  obtain ⟨hlen, hL, hB, hstart, hfinal, hS⟩ := h
  obtain ⟨hL', hB', hS'⟩ := rows_modify_sinsert n.final_state ALPHABET_SIZE hstart hL hB hS
  refine ⟨?_, hL', hB', hstart, hstart, hS'⟩
  show (modifyIdx _ _ _).length = n.num_states
  rw [modifyIdx_length]
  exact hlen

theorem valid_concatenate {a b : NFA} (hva : Valid a) (hvb : Valid b) :
    Valid (concatenate a b) := by
  obtain ⟨hL, hB, hS⟩ := rows_append_offset hva hvb
  obtain ⟨halen, -, -, hastart, hafinal, -⟩ := hva
  obtain ⟨hblen, -, -, hbstart, hbfinal, -⟩ := hvb
  have hx : a.num_states + b.start_state < a.num_states + b.num_states := by omega
  obtain ⟨hL', hB', hS'⟩ := rows_modify_sinsert a.final_state ALPHABET_SIZE hx hL hB hS
  refine ⟨?_, hL', hB', ?_, ?_, hS'⟩
  · show (modifyIdx _ _ _).length = a.num_states + b.num_states
    rw [modifyIdx_length, List.length_append, List.length_map]
    omega
  · show a.start_state < a.num_states + b.num_states
    omega
  · show a.num_states + b.final_state < a.num_states + b.num_states
    omega

theorem valid_union {a b : NFA} (hva : Valid a) (hvb : Valid b) : Valid (union a b) := by
  obtain ⟨hL, hB, hS⟩ := rows_append_offset hva hvb
  obtain ⟨halen, -, -, hastart, hafinal, -⟩ := hva
  obtain ⟨hblen, -, -, hbstart, hbfinal, -⟩ := hvb
  have hx1 : a.num_states + b.start_state < a.num_states + b.num_states := by omega
  have hx2 : a.num_states + b.final_state < a.num_states + b.num_states := by omega
  obtain ⟨hL1, hB1, hS1⟩ := rows_modify_sinsert a.start_state ALPHABET_SIZE hx1 hL hB hS
  obtain ⟨hL2, hB2, hS2⟩ := rows_modify_sinsert a.final_state ALPHABET_SIZE hx2 hL1 hB1 hS1
  refine ⟨?_, hL2, hB2, ?_, ?_, hS2⟩
  · show (modifyIdx _ _ _).length = a.num_states + b.num_states
    rw [modifyIdx_length, modifyIdx_length, List.length_append, List.length_map]
    omega
  · show a.start_state < a.num_states + b.num_states
    omega
  · show a.num_states + b.final_state < a.num_states + b.num_states
    omega

end Regex

namespace Regex

/-! ### Epsilon closure: the DFS computes epsilon reachability -/

theorem length_sinsert_of_not_mem {x : Nat} {l : List Nat} (h : x ∉ l) :
    (sinsert x l).length = l.length + 1 := by
  induction l with
  | nil => rfl
  | cons y l ih =>
    simp only [sinsert]
    split
    · rfl
    · split
      · rename_i h2
        exact absurd (h2 ▸ List.mem_cons_self _ _) h
      · simp only [List.length_cons]
        rw [ih (fun hc => h (List.mem_cons_of_mem _ hc))]

theorem deltaSet_empty_or_entry (n : NFA) (q c : Nat) :
    deltaSet n q c = [] ∨ ∃ row ∈ n.delta, deltaSet n q c ∈ row := by
  unfold deltaSet nrow
  rw [List.getD_eq_getElem?_getD, List.getD_eq_getElem?_getD]
  cases hrow : n.delta[q]? with
  | none => simp
  | some row =>
    simp only [Option.getD_some]
    cases hs : row[c]? with
    | none => simp
    | some s =>
      simp only [Option.getD_some]
      exact Or.inr ⟨row, List.getElem?_mem hrow, List.getElem?_mem hs⟩

theorem deltaSet_mem_lt {n : NFA} (hv : Valid n) (q c x : Nat) (hx : x ∈ deltaSet n q c) :
    x < n.num_states := by
  obtain ⟨-, -, hB, -, -, -⟩ := hv
  rcases deltaSet_empty_or_entry n q c with h | ⟨row, hrow, hs⟩
  · rw [h] at hx; simp at hx
  · exact hB row hrow _ hs x hx

theorem deltaSet_sorted {n : NFA} (hv : Valid n) (q c : Nat) :
    (deltaSet n q c).Sorted (· < ·) := by
  obtain ⟨-, -, -, -, -, hS⟩ := hv
  rcases deltaSet_empty_or_entry n q c with h | ⟨row, hrow, hs⟩
  · rw [h]; simp
  · exact hS row hrow _ hs

theorem epsLoop_subset {n : NFA} {fuel : Nat} {stack closure C : List Nat}
    (h : epsilonClosureLoop n fuel stack closure = some C) :
    (∀ x ∈ closure, x ∈ C) ∧ (∀ s ∈ stack, s ∈ C) := by
  induction fuel generalizing stack closure with
  | zero =>
    cases stack with
    | nil =>
      simp only [epsilonClosureLoop] at h
      cases h
      exact ⟨fun x hx => hx, fun s hs => by simp at hs⟩
    | cons a stack => simp [epsilonClosureLoop] at h
  | succ fuel ih =>
    cases stack with
    | nil =>
      simp only [epsilonClosureLoop] at h
      cases h
      exact ⟨fun x hx => hx, fun s hs => by simp at hs⟩
    | cons current stack =>
      simp only [epsilonClosureLoop] at h
      by_cases hc : current ∈ closure
      · rw [if_pos hc] at h
        obtain ⟨h1, h2⟩ := ih h
        refine ⟨h1, ?_⟩
        intro s hs
        rcases List.mem_cons.mp hs with rfl | hs
        · exact h1 _ hc
        · exact h2 _ hs
      · rw [if_neg hc] at h
        obtain ⟨h1, h2⟩ := ih h
        refine ⟨?_, ?_⟩
        · intro x hx
          exact h1 _ (mem_sinsert.mpr (Or.inr hx))
        · intro s hs
          rcases List.mem_cons.mp hs with rfl | hs
          · exact h1 _ (mem_sinsert.mpr (Or.inl rfl))
          · exact h2 _ (List.mem_append_right _ hs)

theorem epsLoop_sorted {n : NFA} {fuel : Nat} {stack closure C : List Nat}
    (hs : closure.Sorted (· < ·))
    (h : epsilonClosureLoop n fuel stack closure = some C) : C.Sorted (· < ·) := by
  induction fuel generalizing stack closure with
  | zero =>
    cases stack with
    | nil => simp only [epsilonClosureLoop] at h; cases h; exact hs
    | cons a stack => simp [epsilonClosureLoop] at h
  | succ fuel ih =>
    cases stack with
    | nil => simp only [epsilonClosureLoop] at h; cases h; exact hs
    | cons current stack =>
      simp only [epsilonClosureLoop] at h
      by_cases hc : current ∈ closure
      · rw [if_pos hc] at h
        exact ih hs h
      · rw [if_neg hc] at h
        exact ih (sorted_sinsert hs) h

theorem epsLoop_closed {n : NFA} {fuel : Nat} {stack closure C : List Nat}
    (h : epsilonClosureLoop n fuel stack closure = some C)
    (hinv : ∀ a ∈ closure, ∀ b, epsStep n a b → b ∈ closure ∨ b ∈ stack) :
    ∀ a ∈ C, ∀ b, epsStep n a b → b ∈ C := by
  induction fuel generalizing stack closure with
  | zero =>
    cases stack with
    | nil =>
      simp only [epsilonClosureLoop] at h
      cases h
      intro a ha b hb
      rcases hinv a ha b hb with h | h
      · exact h
      · simp at h
    | cons a stack => simp [epsilonClosureLoop] at h
  | succ fuel ih =>
    cases stack with
    | nil =>
      simp only [epsilonClosureLoop] at h
      cases h
      intro a ha b hb
      rcases hinv a ha b hb with h | h
      · exact h
      · simp at h
    | cons current stack =>
      simp only [epsilonClosureLoop] at h
      by_cases hc : current ∈ closure
      · rw [if_pos hc] at h
        refine ih h ?_
        intro a ha b hb
        rcases hinv a ha b hb with h' | h'
        · exact Or.inl h'
        · rcases List.mem_cons.mp h' with rfl | h'
          · exact Or.inl hc
          · exact Or.inr h'
      · rw [if_neg hc] at h
        refine ih h ?_
        intro a ha b hb
        rcases mem_sinsert.mp ha with rfl | ha
        · by_cases hbc : b ∈ closure
          · exact Or.inl (mem_sinsert.mpr (Or.inr hbc))
          · refine Or.inr (List.mem_append_left _ ?_)
            rw [List.mem_filter]
            exact ⟨hb, by simpa using hbc⟩
        · rcases hinv a ha b hb with h' | h'
          · exact Or.inl (mem_sinsert.mpr (Or.inr h'))
          · rcases List.mem_cons.mp h' with rfl | h'
            · exact Or.inl (mem_sinsert.mpr (Or.inl rfl))
            · exact Or.inr (List.mem_append_right _ h')

theorem epsLoop_sound {n : NFA} {fuel : Nat} {stack closure C : List Nat}
    (R : Nat → Prop) (hR : ∀ a b, R a → epsStep n a b → R b)
    (h : epsilonClosureLoop n fuel stack closure = some C)
    (hclo : ∀ x ∈ closure, R x) (hstk : ∀ s ∈ stack, R s) :
    ∀ x ∈ C, R x := by
  induction fuel generalizing stack closure with
  | zero =>
    cases stack with
    | nil => simp only [epsilonClosureLoop] at h; cases h; exact hclo
    | cons a stack => simp [epsilonClosureLoop] at h
  | succ fuel ih =>
    cases stack with
    | nil => simp only [epsilonClosureLoop] at h; cases h; exact hclo
    | cons current stack =>
      simp only [epsilonClosureLoop] at h
      by_cases hc : current ∈ closure
      · rw [if_pos hc] at h
        exact ih h hclo (fun s hs => hstk s (List.mem_cons_of_mem _ hs))
      · rw [if_neg hc] at h
        refine ih h ?_ ?_
        · intro x hx
          rcases mem_sinsert.mp hx with rfl | hx
          · exact hstk _ (List.mem_cons_self _ _)
          · exact hclo x hx
        · intro s hs
          rcases List.mem_append.mp hs with hs | hs
          · rw [List.mem_filter] at hs
            exact hR current s (hstk _ (List.mem_cons_self _ _)) hs.1
          · exact hstk s (List.mem_cons_of_mem _ hs)

theorem epsLoop_isSome {n : NFA} (hv : Valid n) {fuel : Nat} {stack closure : List Nat}
    (hstk : ∀ s ∈ stack, s < n.num_states)
    (hclo : ∀ x ∈ closure, x < n.num_states)
    (hsort : closure.Sorted (· < ·))
    (hfuel : stack.length + (n.num_states - closure.length) * (n.num_states + 1) ≤ fuel) :
    (epsilonClosureLoop n fuel stack closure).isSome := by
  induction fuel generalizing stack closure with
  | zero =>
    cases stack with
    | nil => simp [epsilonClosureLoop]
    | cons current stack => simp at hfuel
  | succ fuel ih =>
    cases stack with
    | nil => simp [epsilonClosureLoop]
    | cons current stack =>
      simp only [epsilonClosureLoop]
      by_cases hc : current ∈ closure
      · rw [if_pos hc]
        refine ih (fun s hs => hstk s (List.mem_cons_of_mem _ hs)) hclo hsort ?_
        simp only [List.length_cons] at hfuel
        omega
      · rw [if_neg hc]
        have hcur : current < n.num_states := hstk _ (List.mem_cons_self _ _)
        have hclo' : ∀ x ∈ sinsert current closure, x < n.num_states := by
          intro x hx
          rcases mem_sinsert.mp hx with rfl | hx
          · exact hcur
          · exact hclo x hx
        have hsort' : (sinsert current closure).Sorted (· < ·) := sorted_sinsert hsort
        have hlen' : (sinsert current closure).length = closure.length + 1 :=
          length_sinsert_of_not_mem hc
        have hlt : closure.length < n.num_states := by
          have := sorted_length_le hsort' hclo'
          omega
        have hpush : ((deltaSet n current ALPHABET_SIZE).filter
            (fun x => decide (x ∉ closure))).length ≤ n.num_states := by
          calc ((deltaSet n current ALPHABET_SIZE).filter
              (fun x => decide (x ∉ closure))).length
              ≤ (deltaSet n current ALPHABET_SIZE).length := List.length_filter_le _ _
            _ ≤ n.num_states := sorted_length_le (deltaSet_sorted hv current ALPHABET_SIZE)
                (fun x hx => deltaSet_mem_lt hv current ALPHABET_SIZE x hx)
        refine ih ?_ hclo' hsort' ?_
        · intro s hs
          rcases List.mem_append.mp hs with hs | hs
          · rw [List.mem_filter] at hs
            exact deltaSet_mem_lt hv current ALPHABET_SIZE s hs.1
          · exact hstk s (List.mem_cons_of_mem _ hs)
        · rw [List.length_append, hlen']
          simp only [List.length_cons] at hfuel
          have hsplit : n.num_states - closure.length = (n.num_states - (closure.length + 1)) + 1 := by
            omega
          rw [hsplit] at hfuel
          rw [Nat.succ_mul] at hfuel
          omega

theorem epsilon_closure_run {n : NFA} (hv : Valid n) {p : Nat} (hp : p < n.num_states) :
    ∃ C, epsilonClosureLoop n (closureFuel n) [p] [] = some C ∧ epsilon_closure n p = C := by
  have h1 : ∀ s ∈ [p], s < n.num_states := by
    intro s hs
    rcases List.mem_singleton.mp hs with rfl
    exact hp
  have h2 : ∀ x ∈ ([] : List Nat), x < n.num_states := by
    intro x hx
    simp at hx
  have h4 : ([p] : List Nat).length +
      (n.num_states - ([] : List Nat).length) * (n.num_states + 1) ≤ closureFuel n := by
    show 1 + (n.num_states - 0) * (n.num_states + 1) ≤ (n.num_states + 1) * (n.num_states + 1)
    rw [Nat.sub_zero]
    have h : (n.num_states + 1) * (n.num_states + 1) =
        n.num_states * (n.num_states + 1) + (n.num_states + 1) := by ring
    omega
  have hsome := @epsLoop_isSome n hv (closureFuel n) [p] [] h1 h2 List.sorted_nil h4
  obtain ⟨C, hC⟩ := Option.isSome_iff_exists.mp hsome
  refine ⟨C, hC, ?_⟩
  unfold epsilon_closure
  rw [hC]
  rfl

theorem mem_epsilon_closure_iff {n : NFA} (hv : Valid n) {p : Nat} (hp : p < n.num_states)
    (q : Nat) : q ∈ epsilon_closure n p ↔ epsReaches n p q := by
  obtain ⟨C, hC, heq⟩ := epsilon_closure_run hv hp
  rw [heq]
  constructor
  · intro hq
    refine epsLoop_sound (epsReaches n p)
      (fun a b ha hab => Relation.ReflTransGen.tail ha hab) hC ?_ ?_ q hq
    · intro x hx
      simp at hx
    · intro s hs
      rcases List.mem_singleton.mp hs with rfl
      exact Relation.ReflTransGen.refl
  · intro hq
    have hclosed : ∀ a ∈ C, ∀ b, epsStep n a b → b ∈ C := by
      refine epsLoop_closed hC ?_
      intro a ha
      simp at ha
    have hself : p ∈ C := (epsLoop_subset hC).2 p (List.mem_singleton_self p)
    induction hq with
    | refl => exact hself
    | tail hab hbc ih => exact hclosed _ ih _ hbc

theorem epsilon_closure_bounded {n : NFA} (hv : Valid n) {p : Nat} (hp : p < n.num_states) :
    ∀ x ∈ epsilon_closure n p, x < n.num_states := by
  intro x hx
  rw [mem_epsilon_closure_iff hv hp] at hx
  induction hx with
  | refl => exact hp
  | tail hab hbc ih => exact deltaSet_mem_lt hv _ _ _ hbc

theorem epsilon_closure_sorted (n : NFA) (p : Nat) :
    (epsilon_closure n p).Sorted (· < ·) := by
  unfold epsilon_closure
  cases h : epsilonClosureLoop n (closureFuel n) [p] [] with
  | none => simp
  | some C =>
    simp only [Option.getD_some]
    exact epsLoop_sorted List.sorted_nil h

theorem self_mem_epsilon_closure {n : NFA} (hv : Valid n) {p : Nat} (hp : p < n.num_states) :
    p ∈ epsilon_closure n p :=
  (mem_epsilon_closure_iff hv hp p).mpr Relation.ReflTransGen.refl

/-! ### The subset-construction step -/

theorem mem_stepSet {n : NFA} {S : List Nat} {c x : Nat} :
    x ∈ stepSet n S c ↔ ∃ q ∈ S, ∃ r ∈ deltaSet n q c, x ∈ epsilon_closure n r := by
  unfold stepSet
  rw [mem_bigUnion]
  constructor
  · rintro ⟨l, hl, hx⟩
    rcases List.mem_map.mp hl with ⟨q, hq, rfl⟩
    rw [mem_bigUnion] at hx
    rcases hx with ⟨l', hl', hx⟩
    rcases List.mem_map.mp hl' with ⟨r, hr, rfl⟩
    exact ⟨q, hq, r, hr, hx⟩
  · rintro ⟨q, hq, r, hr, hx⟩
    refine ⟨bigUnion ((deltaSet n q c).map (fun r => epsilon_closure n r)),
      List.mem_map_of_mem _ hq, ?_⟩
    rw [mem_bigUnion]
    exact ⟨epsilon_closure n r, List.mem_map_of_mem _ hr, hx⟩

theorem stepSet_sorted (n : NFA) (S : List Nat) (c : Nat) :
    (stepSet n S c).Sorted (· < ·) := sorted_bigUnion

theorem stepSet_bounded {n : NFA} (hv : Valid n) (S : List Nat) (c : Nat) :
    ∀ x ∈ stepSet n S c, x < n.num_states := by
  intro x hx
  rcases mem_stepSet.mp hx with ⟨q, hq, r, hr, hx⟩
  have hrlt : r < n.num_states := deltaSet_mem_lt hv q c r hr
  exact epsilon_closure_bounded hv hrlt x hx

theorem mem_stepSet_iff_spec {n : NFA} (hv : Valid n) (S : List Nat) (T : Set Nat)
    (hST : ∀ q, q ∈ S ↔ q ∈ T) (c x : Nat) :
    x ∈ stepSet n S c ↔ x ∈ stepSpecSet n T c := by
  rw [mem_stepSet]
  unfold stepSpecSet
  simp only [Set.mem_setOf_eq]
  constructor
  · rintro ⟨q, hq, r, hr, hx⟩
    have hrlt : r < n.num_states := deltaSet_mem_lt hv q c r hr
    exact ⟨q, (hST q).mp hq, r, hr, (mem_epsilon_closure_iff hv hrlt x).mp hx⟩
  · rintro ⟨q, hq, r, hr, hx⟩
    have hrlt : r < n.num_states := deltaSet_mem_lt hv q c r hr
    exact ⟨q, (hST q).mpr hq, r, hr, (mem_epsilon_closure_iff hv hrlt x).mpr hx⟩

theorem simRun_spec {n : NFA} (hv : Valid n) (s : List Char) (x : Nat) :
    x ∈ simRun n s ↔
      x ∈ s.foldl (fun S ch => stepSpecSet n S ch.toNat) (closureSpec n n.start_state) := by
  have hstart : n.start_state < n.num_states := hv.2.2.2.1
  unfold simRun
  have hbase : ∀ q, q ∈ epsilon_closure n n.start_state ↔ q ∈ closureSpec n n.start_state :=
    fun q => mem_epsilon_closure_iff hv hstart q
  revert hbase
  generalize epsilon_closure n n.start_state = S
  generalize closureSpec n n.start_state = T
  intro hbase
  induction s generalizing S T with
  | nil => exact hbase x
  | cons ch rest ih =>
    simp only [List.foldl_cons]
    exact ih _ _ (fun q => mem_stepSet_iff_spec hv S T hbase ch.toNat q)

theorem nfaAcceptsSpec_iff_simRun {n : NFA} (hv : Valid n) (s : List Char) :
    nfaAcceptsSpec n s ↔ n.final_state ∈ simRun n s := by
  unfold nfaAcceptsSpec
  rw [simRun_spec hv s n.final_state]

end Regex

namespace Regex

/-! ### `idxOf` on the state map -/

theorem idxOf_lt_length {m : List (List Nat)} {S : List Nat} (h : S ∈ m) :
    idxOf m S < m.length := by
  induction m with
  | nil => simp at h
  | cons T rest ih =>
    simp only [idxOf]
    split
    · simp
    · rename_i hne
      have : S ∈ rest := by
        rcases List.mem_cons.mp h with rfl | h'
        · exact absurd rfl hne
        · exact h'
      simpa [List.length_cons] using ih this

theorem getElem?_idxOf {m : List (List Nat)} {S : List Nat} (h : S ∈ m) :
    m[idxOf m S]? = some S := by
  induction m with
  | nil => simp at h
  | cons T rest ih =>
    simp only [idxOf]
    split
    · rename_i he
      simpa using he
    · rename_i hne
      have : S ∈ rest := by
        rcases List.mem_cons.mp h with rfl | h'
        · exact absurd rfl hne
        · exact h'
      simpa using ih this

theorem idxOf_getElem? {m : List (List Nat)} (hnd : m.Nodup) {i : Nat} {S : List Nat}
    (h : m[i]? = some S) : idxOf m S = i := by
  induction m generalizing i with
  | nil => simp at h
  | cons T rest ih =>
    rw [List.nodup_cons] at hnd
    cases i with
    | zero =>
      simp only [List.getElem?_cons_zero, Option.some_inj] at h
      subst h
      simp [idxOf]
    | succ i =>
      simp only [List.getElem?_cons_succ] at h
      have hmem : S ∈ rest := List.getElem?_mem h
      have hne : T ≠ S := fun he => hnd.1 (he ▸ hmem)
      simp only [idxOf, if_neg hne]
      rw [ih hnd.2 h]

/-! ### Counting canonical subsets: the powerset bound -/

theorem canon_count {k : Nat} : ∀ {l : List (List Nat)}, l.Nodup →
    (∀ S ∈ l, S.Sorted (· < ·) ∧ ∀ x ∈ S, x < k) → l.length ≤ 2 ^ k := by
  intro l hnd hP
  have hinj : ∀ S ∈ l, ∀ T ∈ l, S.toFinset = T.toFinset → S = T := by
    intro S hS T hT he
    refine sorted_ext (hP S hS).1 (hP T hT).1 ?_
    intro x
    rw [← List.mem_toFinset, he, List.mem_toFinset]
  have hndmap : (l.map List.toFinset).Nodup := List.Nodup.map_on hinj hnd
  have hlen : (l.map List.toFinset).length = l.length := List.length_map l _
  have hsub : (l.map List.toFinset).toFinset ⊆ (Finset.range k).powerset := by
    intro F hF
    rw [List.mem_toFinset] at hF
    rcases List.mem_map.mp hF with ⟨S, hS, rfl⟩
    rw [Finset.mem_powerset]
    intro x hx
    rw [List.mem_toFinset] at hx
    rw [Finset.mem_range]
    exact (hP S hS).2 x hx
  calc l.length = (l.map List.toFinset).length := hlen.symm
    _ = (l.map List.toFinset).toFinset.card := (List.toFinset_card_of_nodup hndmap).symm
    _ ≤ ((Finset.range k).powerset).card := Finset.card_le_card hsub
    _ = 2 ^ k := by rw [Finset.card_powerset, Finset.card_range]

/-! ### The subset-construction worklist -/

theorem dfaLoop_extends {n : NFA} {fuel : Nat} {queue map m : List (List Nat)}
    (h : toDfaLoop n fuel queue map = some m) : ∃ t, m = map ++ t := by
  induction fuel generalizing queue map with
  | zero =>
    cases queue with
    | nil => simp only [toDfaLoop] at h; cases h; exact ⟨[], by simp⟩
    | cons cs queue => simp [toDfaLoop] at h
  | succ fuel ih =>
    cases queue with
    | nil => simp only [toDfaLoop] at h; cases h; exact ⟨[], by simp⟩
    | cons cs queue =>
      simp only [toDfaLoop] at h
      by_cases hc : cs ∈ map
      · rw [if_pos hc] at h
        exact ih h
      · rw [if_neg hc] at h
        obtain ⟨t, ht⟩ := ih h
        exact ⟨cs :: t, by simp [ht]⟩

theorem dfaLoop_queue_mem {n : NFA} {fuel : Nat} {queue map m : List (List Nat)}
    (h : toDfaLoop n fuel queue map = some m) : ∀ S ∈ queue, S ∈ m := by
  induction fuel generalizing queue map with
  | zero =>
    cases queue with
    | nil => intro S hS; simp at hS
    | cons cs queue => simp [toDfaLoop] at h
  | succ fuel ih =>
    cases queue with
    | nil => intro S hS; simp at hS
    | cons cs queue =>
      simp only [toDfaLoop] at h
      by_cases hc : cs ∈ map
      · rw [if_pos hc] at h
        intro S hS
        rcases List.mem_cons.mp hS with rfl | hS
        · obtain ⟨t, rfl⟩ := dfaLoop_extends h
          exact List.mem_append_left _ hc
        · exact ih h S hS
      · rw [if_neg hc] at h
        intro S hS
        rcases List.mem_cons.mp hS with rfl | hS
        · obtain ⟨t, rfl⟩ := dfaLoop_extends h
          exact List.mem_append_left _ (List.mem_append_right _ (List.mem_singleton_self _))
        · exact ih h S (List.mem_append_left _ hS)

theorem dfaLoop_nodup {n : NFA} {fuel : Nat} {queue map m : List (List Nat)}
    (h : toDfaLoop n fuel queue map = some m) (hnd : map.Nodup) : m.Nodup := by
  induction fuel generalizing queue map with
  | zero =>
    cases queue with
    | nil => simp only [toDfaLoop] at h; cases h; exact hnd
    | cons cs queue => simp [toDfaLoop] at h
  | succ fuel ih =>
    cases queue with
    | nil => simp only [toDfaLoop] at h; cases h; exact hnd
    | cons cs queue =>
      simp only [toDfaLoop] at h
      by_cases hc : cs ∈ map
      · rw [if_pos hc] at h
        exact ih h hnd
      · rw [if_neg hc] at h
        refine ih h ?_
        rw [List.nodup_append]
        refine ⟨hnd, List.nodup_singleton _, ?_⟩
        intro S hS
        simp only [List.mem_singleton]
        intro he
        exact hc (he ▸ hS)

theorem dfaLoop_elem_props {n : NFA} {fuel : Nat} {queue map m : List (List Nat)}
    (P : List Nat → Prop) (hstep : ∀ S c, P (stepSet n S c))
    (h : toDfaLoop n fuel queue map = some m)
    (hq : ∀ S ∈ queue, P S) (hm : ∀ S ∈ map, P S) : ∀ S ∈ m, P S := by
  induction fuel generalizing queue map with
  | zero =>
    cases queue with
    | nil => simp only [toDfaLoop] at h; cases h; exact hm
    | cons cs queue => simp [toDfaLoop] at h
  | succ fuel ih =>
    cases queue with
    | nil => simp only [toDfaLoop] at h; cases h; exact hm
    | cons cs queue =>
      simp only [toDfaLoop] at h
      by_cases hc : cs ∈ map
      · rw [if_pos hc] at h
        exact ih h (fun S hS => hq S (List.mem_cons_of_mem _ hS)) hm
      · rw [if_neg hc] at h
        refine ih h ?_ ?_
        · intro S hS
          rcases List.mem_append.mp hS with hS | hS
          · exact hq S (List.mem_cons_of_mem _ hS)
          · rcases List.mem_map.mp hS with ⟨c, hcmem, rfl⟩
            exact hstep cs c
        · intro S hS
          rcases List.mem_append.mp hS with hS | hS
          · exact hm S hS
          · rcases List.mem_singleton.mp hS with rfl
            exact hq S (List.mem_cons_self _ _)

theorem dfaLoop_succ_closed {n : NFA} {fuel : Nat} {queue map m : List (List Nat)}
    (h : toDfaLoop n fuel queue map = some m)
    (hinv : ∀ S ∈ map, ∀ c, c < ALPHABET_SIZE →
      stepSet n S c ∈ map ∨ stepSet n S c ∈ queue) :
    ∀ S ∈ m, ∀ c, c < ALPHABET_SIZE → stepSet n S c ∈ m := by
  induction fuel generalizing queue map with
  | zero =>
    cases queue with
    | nil =>
      simp only [toDfaLoop] at h
      cases h
      intro S hS c hclt
      rcases hinv S hS c hclt with h' | h'
      · exact h'
      · simp at h'
    | cons cs queue => simp [toDfaLoop] at h
  | succ fuel ih =>
    cases queue with
    | nil =>
      simp only [toDfaLoop] at h
      cases h
      intro S hS c hclt
      rcases hinv S hS c hclt with h' | h'
      · exact h'
      · simp at h'
    | cons cs queue =>
      simp only [toDfaLoop] at h
      by_cases hc : cs ∈ map
      · rw [if_pos hc] at h
        refine ih h ?_
        intro S hS c hclt
        rcases hinv S hS c hclt with h' | h'
        · exact Or.inl h'
        · rcases List.mem_cons.mp h' with he | h'
          · exact Or.inl (he ▸ hc)
          · exact Or.inr h'
      · rw [if_neg hc] at h
        refine ih h ?_
        intro S hS c hclt
        rcases List.mem_append.mp hS with hS | hS
        · rcases hinv S hS c hclt with h' | h'
          · exact Or.inl (List.mem_append_left _ h')
          · rcases List.mem_cons.mp h' with he | h'
            · exact Or.inl (List.mem_append_right _ (he ▸ List.mem_singleton_self _))
            · exact Or.inr (List.mem_append_left _ h')
        · rcases List.mem_singleton.mp hS with rfl
          refine Or.inr (List.mem_append_right _ ?_)
          refine List.mem_map_of_mem _ ?_
          rw [List.mem_range]
          exact hclt

theorem dfaLoop_isSome {n : NFA} (hv : Valid n) {fuel : Nat} {queue map : List (List Nat)}
    (hq : ∀ S ∈ queue, S.Sorted (· < ·) ∧ ∀ x ∈ S, x < n.num_states)
    (hm : ∀ S ∈ map, S.Sorted (· < ·) ∧ ∀ x ∈ S, x < n.num_states)
    (hnd : map.Nodup)
    (hfuel : queue.length + (2 ^ n.num_states - map.length) * (ALPHABET_SIZE + 1) ≤ fuel) :
    (toDfaLoop n fuel queue map).isSome := by
  induction fuel generalizing queue map with
  | zero =>
    cases queue with
    | nil => simp [toDfaLoop]
    | cons cs queue => simp at hfuel
  | succ fuel ih =>
    cases queue with
    | nil => simp [toDfaLoop]
    | cons cs queue =>
      simp only [toDfaLoop]
      by_cases hc : cs ∈ map
      · rw [if_pos hc]
        refine ih (fun S hS => hq S (List.mem_cons_of_mem _ hS)) hm hnd ?_
        simp only [List.length_cons] at hfuel
        omega
      · rw [if_neg hc]
        have hcs := hq cs (List.mem_cons_self _ _)
        have hnd' : (map ++ [cs]).Nodup := by
          rw [List.nodup_append]
          refine ⟨hnd, List.nodup_singleton _, ?_⟩
          intro S hS
          simp only [List.mem_singleton]
          intro he
          exact hc (he ▸ hS)
        have hm' : ∀ S ∈ map ++ [cs], S.Sorted (· < ·) ∧ ∀ x ∈ S, x < n.num_states := by
          intro S hS
          rcases List.mem_append.mp hS with hS | hS
          · exact hm S hS
          · rcases List.mem_singleton.mp hS with rfl
            exact hcs
        have hcard : (map ++ [cs]).length ≤ 2 ^ n.num_states := canon_count hnd' hm'
        have hmaplen : map.length + 1 ≤ 2 ^ n.num_states := by
          rw [List.length_append, List.length_singleton] at hcard
          exact hcard
        refine ih ?_ hm' hnd' ?_
        · intro S hS
          rcases List.mem_append.mp hS with hS | hS
          · exact hq S (List.mem_cons_of_mem _ hS)
          · rcases List.mem_map.mp hS with ⟨c, hcmem, rfl⟩
            exact ⟨stepSet_sorted n cs c, stepSet_bounded hv cs c⟩
        · rw [List.length_append, List.length_map, List.length_range, List.length_append,
            List.length_singleton]
          simp only [List.length_cons] at hfuel
          have hsplit : 2 ^ n.num_states - map.length =
              (2 ^ n.num_states - (map.length + 1)) + 1 := by omega
          rw [hsplit, Nat.succ_mul] at hfuel
          omega

end Regex

namespace Regex

/-! ### The compiled DFA: shape and simulation -/

theorem to_dfa_map {n : NFA} (hv : Valid n) :
    ∃ m, toDfaLoop n (toDfaFuel n) [epsilon_closure n n.start_state] [] = some m ∧
      m[0]? = some (epsilon_closure n n.start_state) ∧
      m.Nodup ∧
      (∀ S ∈ m, S.Sorted (· < ·) ∧ ∀ x ∈ S, x < n.num_states) ∧
      (∀ S ∈ m, ∀ c, c < ALPHABET_SIZE → stepSet n S c ∈ m) := by
  have hstart : n.start_state < n.num_states := hv.2.2.2.1
  have hq : ∀ S ∈ [epsilon_closure n n.start_state],
      S.Sorted (· < ·) ∧ ∀ x ∈ S, x < n.num_states := by
    intro S hS
    rcases List.mem_singleton.mp hS with rfl
    exact ⟨epsilon_closure_sorted n _, epsilon_closure_bounded hv hstart⟩
  have hm0 : ∀ S ∈ ([] : List (List Nat)), S.Sorted (· < ·) ∧ ∀ x ∈ S, x < n.num_states := by
    intro S hS
    simp at hS
  have hfuel : ([epsilon_closure n n.start_state] : List (List Nat)).length +
      (2 ^ n.num_states - ([] : List (List Nat)).length) * (ALPHABET_SIZE + 1) ≤ toDfaFuel n := by
    show 1 + (2 ^ n.num_states - 0) * (ALPHABET_SIZE + 1) ≤ (ALPHABET_SIZE + 1) * 2 ^ n.num_states + 2
    rw [Nat.sub_zero, Nat.mul_comm (2 ^ n.num_states) (ALPHABET_SIZE + 1)]
    omega
  have hsome := dfaLoop_isSome hv hq hm0 List.nodup_nil hfuel
  obtain ⟨m, hm⟩ := Option.isSome_iff_exists.mp hsome
  refine ⟨m, hm, ?_, dfaLoop_nodup hm List.nodup_nil, ?_, ?_⟩
  · -- the first discovered set is the epsilon closure of the start state
    have h2 : 2 ≤ toDfaFuel n := by
      have h1 : 1 ≤ 2 ^ n.num_states := Nat.one_le_two_pow
      show 2 ≤ (ALPHABET_SIZE + 1) * 2 ^ n.num_states + 2
      omega
    obtain ⟨F, hF⟩ : ∃ F, toDfaFuel n = F + 1 := ⟨toDfaFuel n - 1, by omega⟩
    rw [hF] at hm
    simp only [toDfaLoop, List.not_mem_nil, if_neg] at hm
    obtain ⟨t, rfl⟩ := dfaLoop_extends hm
    simp
  · exact dfaLoop_elem_props _
      (fun S c => ⟨stepSet_sorted n S c, stepSet_bounded hv S c⟩) hm hq hm0
  · refine dfaLoop_succ_closed hm ?_
    intro S hS
    simp at hS

theorem acceptFrom_sim {n : NFA} {m : List (List Nat)} {d : DFA}
    (hdelta : d.delta = m.map (fun S =>
      (List.range ALPHABET_SIZE).map (fun c => idxOf m (stepSet n S c))))
    (hclosed : ∀ S ∈ m, ∀ c, c < ALPHABET_SIZE → stepSet n S c ∈ m) :
    ∀ (s : List Char), (∀ ch ∈ s, ch.toNat < ALPHABET_SIZE) → ∀ S, S ∈ m →
      acceptFrom d (idxOf m S) s =
        some (idxOf m (s.foldl (fun T ch => stepSet n T ch.toNat) S)) := by
  intro s
  induction s with
  | nil =>
    intro hchars S hS
    simp [acceptFrom]
  | cons ch rest ih =>
    intro hchars S hS
    have hch : ch.toNat < ALPHABET_SIZE := hchars ch (List.mem_cons_self _ _)
    have hrow : d.delta[idxOf m S]? = some
        ((List.range ALPHABET_SIZE).map (fun c => idxOf m (stepSet n S c))) := by
      rw [hdelta, List.getElem?_map, getElem?_idxOf hS]
      rfl
    have hentry : ((List.range ALPHABET_SIZE).map
        (fun c => idxOf m (stepSet n S c)))[ch.toNat]? =
        some (idxOf m (stepSet n S ch.toNat)) := by
      rw [List.getElem?_map, List.getElem?_range hch]
      rfl
    simp only [acceptFrom, hrow, Option.some_bind, hentry, List.foldl_cons]
    exact ih (fun c hc => hchars c (List.mem_cons_of_mem _ hc)) _
      (hclosed S hS ch.toNat hch)

/-- The compiled DFA exists for every valid NFA and its `accept` agrees
with the executable epsilon-closure simulation on alphabet strings. -/
theorem accept_to_dfa {n : NFA} (hv : Valid n) :
    ∃ d, to_dfa n = some d ∧
      ∀ (s : String), (∀ ch ∈ s.data, ch.toNat < ALPHABET_SIZE) →
        accept d s = some (decide (n.final_state ∈ simRun n s.data)) := by
  obtain ⟨m, hm, hhead, hnd, hprops, hclosed⟩ := to_dfa_map hv
  obtain ⟨d, hd, hdelta, hstart0, hfinal⟩ : ∃ d, to_dfa n = some d ∧
      d.delta = m.map (fun S =>
        (List.range ALPHABET_SIZE).map (fun c => idxOf m (stepSet n S c))) ∧
      d.start_state = 0 ∧
      d.final_states = (List.range m.length).filter
        (fun i => decide (n.final_state ∈ m.getD i [])) := by
    refine ⟨{ num_states := m.length
              delta := m.map (fun S =>
                (List.range ALPHABET_SIZE).map (fun c => idxOf m (stepSet n S c)))
              start_state := 0
              final_states := (List.range m.length).filter
                (fun i => decide (n.final_state ∈ m.getD i [])) }, ?_, rfl, rfl, rfl⟩
    unfold to_dfa
    rw [hm]
  refine ⟨d, hd, ?_⟩
  intro s hchars
  have hc0 : epsilon_closure n n.start_state ∈ m := List.getElem?_mem hhead
  have hzero : idxOf m (epsilon_closure n n.start_state) = 0 := idxOf_getElem? hnd hhead
  have hrun0 := acceptFrom_sim hdelta hclosed s.data hchars (epsilon_closure n n.start_state) hc0
  rw [hzero] at hrun0
  have hrun : acceptFrom d 0 s.data = some (idxOf m (simRun n s.data)) := hrun0
  have hRmem : simRun n s.data ∈ m := by
    unfold simRun
    have hfold : ∀ (l : List Char) (S : List Nat), (∀ ch ∈ l, ch.toNat < ALPHABET_SIZE) →
        S ∈ m → l.foldl (fun T ch => stepSet n T ch.toNat) S ∈ m := by
      intro l
      induction l with
      | nil => intro S _ hS; exact hS
      | cons ch rest ih =>
        intro S hl hS
        simp only [List.foldl_cons]
        exact ih _ (fun c hc => hl c (List.mem_cons_of_mem _ hc))
          (hclosed S hS ch.toNat (hl ch (List.mem_cons_self _ _)))
    exact hfold s.data _ hchars hc0
  unfold accept
  rw [hstart0, hrun]
  simp only [Option.map_some']
  congr 1
  have hlt : idxOf m (simRun n s.data) < m.length := idxOf_lt_length hRmem
  have hgetD : m.getD (idxOf m (simRun n s.data)) [] = simRun n s.data := by
    rw [List.getD_eq_getElem?_getD, getElem?_idxOf hRmem]
    rfl
  rw [hfinal, decide_eq_decide, List.mem_filter]
  simp only [List.mem_range, hgetD]
  constructor
  · intro h
    exact of_decide_eq_true h.2
  · intro h
    exact ⟨hlt, decide_eq_true h⟩

end Regex


namespace Regex

/-! ### Extensional characterization of the combinator tables -/

theorem getD_getD (table : List (List (List Nat))) (q c : Nat) :
    (table.getD q []).getD c [] = (table[q]?.getD [])[c]?.getD [] := by
  rw [List.getD_eq_getElem?_getD, List.getD_eq_getElem?_getD]

theorem deltaSet_getElem (n : NFA) (q c : Nat) :
    deltaSet n q c = (n.delta[q]?.getD [])[c]?.getD [] := getD_getD n.delta q c

theorem mem_tbl_modify {table : List (List (List Nat))} {i v : Nat}
    (hL : ∀ row ∈ table, row.length = ALPHABET_SIZE + 1) (hi : i < table.length)
    (q c x : Nat) :
    x ∈ ((modifyIdx (fun row => modifyIdx (fun s => sinsert v s) row ALPHABET_SIZE)
          table i).getD q []).getD c [] ↔
      (x ∈ (table.getD q []).getD c [] ∨ (q = i ∧ c = ALPHABET_SIZE ∧ x = v)) := by
  rw [getD_getD, getD_getD, getElem?_modifyIdx]
  by_cases hqi : i = q
  · subst hqi
    obtain ⟨row, hrow⟩ : ∃ row, table[i]? = some row := ⟨_, List.getElem?_eq_getElem hi⟩
    rw [if_pos rfl, hrow]
    simp only [Option.map_some', Option.getD_some]
    rw [getElem?_modifyIdx]
    by_cases hc : ALPHABET_SIZE = c
    · subst hc
      have h256 : ALPHABET_SIZE < row.length := by
        rw [hL row (List.getElem?_mem hrow)]
        omega
      obtain ⟨s, hs⟩ : ∃ s, row[ALPHABET_SIZE]? = some s :=
        ⟨_, List.getElem?_eq_getElem h256⟩
      rw [if_pos rfl, hs]
      simp only [Option.map_some', Option.getD_some]
      rw [mem_sinsert]
      tauto
    · rw [if_neg hc]
      have hno : ¬(i = i ∧ c = ALPHABET_SIZE ∧ x = v) := by
        rintro ⟨-, rfl, -⟩
        exact hc rfl
      tauto
  · rw [if_neg hqi]
    have hno : ¬(q = i ∧ c = ALPHABET_SIZE ∧ x = v) := by
      rintro ⟨rfl, -, -⟩
      exact hqi rfl
    tauto

theorem mem_offsetRow_entry (k : Nat) (row : List (List Nat)) (c x : Nat) :
    x ∈ ((offsetRow k row)[c]?.getD []) ↔ ∃ y ∈ (row[c]?.getD []), x = y + k := by
  unfold offsetRow
  rw [List.getElem?_map]
  cases hs : row[c]? with
  | none => simp
  | some s => simp [List.mem_map, eq_comm]

theorem mem_tbl_append {a b : NFA} (hva : Valid a) (hvb : Valid b) (q c x : Nat) :
    x ∈ (((a.delta ++ b.delta.map (offsetRow a.num_states)).getD q []).getD c []) ↔
      ((q < a.num_states ∧ x ∈ deltaSet a q c) ∨
       (a.num_states ≤ q ∧ q < a.num_states + b.num_states ∧
         ∃ y ∈ deltaSet b (q - a.num_states) c, x = y + a.num_states)) := by
  have halen : a.delta.length = a.num_states := hva.1
  have hblen : b.delta.length = b.num_states := hvb.1
  rw [getD_getD, List.getElem?_append]
  by_cases hq : q < a.delta.length
  · rw [if_pos hq]
    have hqa : q < a.num_states := halen ▸ hq
    rw [← deltaSet_getElem a q c]
    constructor
    · exact fun h => Or.inl ⟨hqa, h⟩
    · rintro (⟨-, h⟩ | ⟨hle, -, -⟩)
      · exact h
      · omega
  · rw [if_neg hq]
    have hqa : ¬ q < a.num_states := fun h => hq (halen ▸ h)
    rw [List.getElem?_map]
    by_cases hqb : q - a.delta.length < b.delta.length
    · obtain ⟨row, hrow⟩ : ∃ row, b.delta[q - a.delta.length]? = some row :=
        ⟨_, List.getElem?_eq_getElem hqb⟩
      rw [hrow]
      simp only [Option.map_some', Option.getD_some]
      rw [mem_offsetRow_entry]
      have hds : deltaSet b (q - a.num_states) c = row[c]?.getD [] := by
        rw [deltaSet_getElem, ← halen, hrow]
        rfl
      rw [← hds]
      constructor
      · rintro ⟨y, hy, rfl⟩
        refine Or.inr ⟨by omega, by omega, y, hy, rfl⟩
      · rintro (⟨h, -⟩ | ⟨-, -, y, hy, rfl⟩)
        · exact absurd h hqa
        · exact ⟨y, hy, rfl⟩
    · have hnone : b.delta[q - a.delta.length]? = none := List.getElem?_eq_none (by omega)
      rw [hnone]
      have hempty : deltaSet b (q - a.num_states) c = [] := by
        rw [deltaSet_getElem, ← halen, hnone]
        rfl
      simp only [Option.map_none', Option.getD_none]
      constructor
      · intro h
        simp at h
      · rintro (⟨h, -⟩ | ⟨-, -, y, hy, -⟩)
        · exact absurd h hqa
        · rw [hempty] at hy
          simp at hy

theorem deltaSet_kleene_star {n : NFA} (hv : Valid n) (q c x : Nat) :
    x ∈ deltaSet (kleene_star n) q c ↔
      (x ∈ deltaSet n q c ∨ (q = n.final_state ∧ c = ALPHABET_SIZE ∧ x = n.start_state)) := by
  have hlen : n.delta.length = n.num_states := hv.1
  have hL : ∀ row ∈ n.delta, row.length = ALPHABET_SIZE + 1 := hv.2.1
  have hfin : n.final_state < n.delta.length := by
    rw [hlen]
    exact hv.2.2.2.2.1
  show x ∈ ((modifyIdx _ n.delta n.final_state).getD q []).getD c [] ↔ _
  rw [mem_tbl_modify hL hfin q c x]
  rfl

theorem deltaSet_union {a b : NFA} (hva : Valid a) (hvb : Valid b) (q c x : Nat) :
    x ∈ deltaSet (union a b) q c ↔
      ((q < a.num_states ∧ x ∈ deltaSet a q c) ∨
       (a.num_states ≤ q ∧ q < a.num_states + b.num_states ∧
         ∃ y ∈ deltaSet b (q - a.num_states) c, x = y + a.num_states) ∨
       (q = a.start_state ∧ c = ALPHABET_SIZE ∧ x = a.num_states + b.start_state) ∨
       (q = a.final_state ∧ c = ALPHABET_SIZE ∧ x = a.num_states + b.final_state)) := by
  obtain ⟨hL1, hB1, hS1⟩ := rows_append_offset hva hvb
  have hlen1 : (a.delta ++ b.delta.map (offsetRow a.num_states)).length =
      a.num_states + b.num_states := by
    rw [List.length_append, List.length_map, hva.1, hvb.1]
  have hstarta : a.start_state < (a.delta ++ b.delta.map (offsetRow a.num_states)).length := by
    rw [hlen1]
    have h := hva.2.2.2.1
    omega
  obtain ⟨hL2, hB2, hS2⟩ :=
    rows_modify_sinsert a.start_state ALPHABET_SIZE
      (show a.num_states + b.start_state < a.num_states + b.num_states by
        have h := hvb.2.2.2.1; omega) hL1 hB1 hS1
  have hfina : a.final_state < (modifyIdx
      (fun row => modifyIdx (fun s => sinsert (a.num_states + b.start_state) s) row ALPHABET_SIZE)
      (a.delta ++ b.delta.map (offsetRow a.num_states)) a.start_state).length := by
    rw [modifyIdx_length, hlen1]
    have h := hva.2.2.2.2.1
    omega
  show x ∈ ((modifyIdx _ (modifyIdx _ (a.delta ++ b.delta.map (offsetRow a.num_states))
    a.start_state) a.final_state).getD q []).getD c [] ↔ _
  rw [mem_tbl_modify hL2 hfina q c x, mem_tbl_modify hL1 hstarta q c x,
    mem_tbl_append hva hvb q c x]
  constructor
  · rintro (((h | h) | h) | h)
    · exact Or.inl h
    · exact Or.inr (Or.inl h)
    · exact Or.inr (Or.inr (Or.inl h))
    · exact Or.inr (Or.inr (Or.inr h))
  · rintro (h | h | h | h)
    · exact Or.inl (Or.inl (Or.inl h))
    · exact Or.inl (Or.inl (Or.inr h))
    · exact Or.inl (Or.inr h)
    · exact Or.inr h

end Regex

namespace Regex

/-! ### The NFA builder produces valid NFAs -/

theorem nfaLoop_valid : ∀ (pf : List Char) (stack : List NFA), (∀ x ∈ stack, Valid x) →
    ∀ {stack' : List NFA}, nfaLoop pf stack = some stack' → ∀ x ∈ stack', Valid x := by
  intro pf
  induction pf with
  | nil =>
    intro stack hstack stack' h
    simp only [nfaLoop, Option.some_inj] at h
    exact h ▸ hstack
  | cons ch rest ih =>
    intro stack hstack stack' h
    simp only [nfaLoop] at h
    by_cases h1 : ch ∉ ['|', '.', '*']
    · rw [if_pos h1] at h
      refine ih _ ?_ h
      intro x hx
      rcases List.mem_cons.mp hx with rfl | hx
      · exact valid_single_char ch
      · exact hstack x hx
    · rw [if_neg h1] at h
      by_cases h2 : ch = '*'
      · rw [if_pos h2] at h
        cases stack with
        | nil => simp at h
        | cons top s =>
          refine ih _ ?_ h
          intro x hx
          rcases List.mem_cons.mp hx with rfl | hx
          · exact valid_kleene_star (hstack top (List.mem_cons_self _ _))
          · exact hstack x (List.mem_cons_of_mem _ hx)
      · rw [if_neg h2] at h
        by_cases h3 : ch = '|'
        · rw [if_pos h3] at h
          match stack, h with
          | b :: a :: s, h =>
            refine ih _ ?_ h
            intro x hx
            rcases List.mem_cons.mp hx with rfl | hx
            · exact valid_union (hstack a (List.mem_cons_of_mem _ (List.mem_cons_self _ _)))
                (hstack b (List.mem_cons_self _ _))
            · exact hstack x (List.mem_cons_of_mem _ (List.mem_cons_of_mem _ hx))
        · rw [if_neg h3] at h
          match stack, h with
          | b :: a :: s, h =>
            refine ih _ ?_ h
            intro x hx
            rcases List.mem_cons.mp hx with rfl | hx
            · exact valid_concatenate (hstack a (List.mem_cons_of_mem _ (List.mem_cons_self _ _)))
                (hstack b (List.mem_cons_self _ _))
            · exact hstack x (List.mem_cons_of_mem _ (List.mem_cons_of_mem _ hx))

theorem postfix_to_nfa_valid {pf : List Char} {n : NFA} (h : postfix_to_nfa pf = some n) :
    Valid n := by
  unfold postfix_to_nfa at h
  cases hloop : nfaLoop pf [] with
  | none => rw [hloop] at h; simp at h
  | some stack' =>
    rw [hloop] at h
    cases stack' with
    | nil => simp at h
    | cons top rest =>
      simp only [Option.some_inj] at h
      subst h
      exact nfaLoop_valid pf [] (by intro x hx; simp at hx) hloop _ (List.mem_cons_self _ _)

/-! ### Preprocessing -/

theorem preprocessAux_eq_preSpec (prev : Char) (l : List Char) :
    preprocessAux prev l = preSpec prev l := by
  induction l generalizing prev with
  | nil => rfl
  | cons b rest ih =>
    simp only [preprocessAux, preSpec]
    rw [ih b]

theorem sublist_preSpec (prev : Char) (l : List Char) : l.Sublist (preSpec prev l) := by
  induction l generalizing prev with
  | nil => exact List.Sublist.refl _
  | cons b rest ih =>
    simp only [preSpec]
    split
    · exact List.Sublist.cons _ (List.Sublist.cons₂ _ (ih b))
    · exact List.Sublist.cons₂ _ (ih b)

end Regex

namespace Regex

/-! ### Shape of the compiled DFA and rejection of out-of-alphabet input -/

theorem to_dfa_shape {n : NFA} (hv : Valid n) :
    ∃ d m, to_dfa n = some d ∧
      toDfaLoop n (toDfaFuel n) [epsilon_closure n n.start_state] [] = some m ∧
      d.num_states = m.length ∧
      d.delta = m.map (fun S =>
        (List.range ALPHABET_SIZE).map (fun c => idxOf m (stepSet n S c))) ∧
      d.start_state = 0 ∧
      d.final_states = (List.range m.length).filter
        (fun i => decide (n.final_state ∈ m.getD i [])) ∧
      m[0]? = some (epsilon_closure n n.start_state) ∧
      m.Nodup ∧
      (∀ S ∈ m, ∀ c, c < ALPHABET_SIZE → stepSet n S c ∈ m) := by
  obtain ⟨m, hm, hhead, hnd, hprops, hclosed⟩ := to_dfa_map hv
  refine ⟨{ num_states := m.length
            delta := m.map (fun S =>
              (List.range ALPHABET_SIZE).map (fun c => idxOf m (stepSet n S c)))
            start_state := 0
            final_states := (List.range m.length).filter
              (fun i => decide (n.final_state ∈ m.getD i [])) },
    m, ?_, hm, rfl, rfl, rfl, rfl, hhead, hnd, hclosed⟩
  unfold to_dfa
  rw [hm]

theorem accept_none_of_big {n : NFA} (hv : Valid n) :
    ∃ d, to_dfa n = some d ∧
      ∀ s : String, (∃ ch ∈ s.data, ALPHABET_SIZE ≤ ch.toNat) → accept d s = none := by
  obtain ⟨d, m, hd, hm, hnum, hdelta, hstart0, hfinal, hhead, hnd, hclosed⟩ := to_dfa_shape hv
  refine ⟨d, hd, ?_⟩
  have hnone : ∀ (l : List Char) (S : List Nat), S ∈ m →
      (∃ ch ∈ l, ALPHABET_SIZE ≤ ch.toNat) → acceptFrom d (idxOf m S) l = none := by
    intro l
    induction l with
    | nil =>
      rintro S hS ⟨ch, hch, -⟩
      simp at hch
    | cons ch rest ih =>
      rintro S hS ⟨ch', hch', hbig⟩
      have hrow : d.delta[idxOf m S]? = some
          ((List.range ALPHABET_SIZE).map (fun c => idxOf m (stepSet n S c))) := by
        rw [hdelta, List.getElem?_map, getElem?_idxOf hS]
        rfl
      by_cases hch : ch.toNat < ALPHABET_SIZE
      · have hentry : ((List.range ALPHABET_SIZE).map
            (fun c => idxOf m (stepSet n S c)))[ch.toNat]? =
            some (idxOf m (stepSet n S ch.toNat)) := by
          rw [List.getElem?_map, List.getElem?_range hch]
          rfl
        simp only [acceptFrom, hrow, Option.some_bind, hentry]
        refine ih _ (hclosed S hS ch.toNat hch) ⟨ch', ?_, hbig⟩
        rcases List.mem_cons.mp hch' with rfl | h
        · omega
        · exact h
      · have hentry : ((List.range ALPHABET_SIZE).map
            (fun c => idxOf m (stepSet n S c)))[ch.toNat]? = none := by
          refine List.getElem?_eq_none ?_
          rw [List.length_map, List.length_range]
          omega
        simp only [acceptFrom, hrow, Option.some_bind, hentry]
  intro s hs
  have hc0 : epsilon_closure n n.start_state ∈ m := List.getElem?_mem hhead
  have hzero : idxOf m (epsilon_closure n n.start_state) = 0 := idxOf_getElem? hnd hhead
  have h := hnone s.data _ hc0 hs
  rw [hzero] at h
  unfold accept
  rw [hstart0, h]
  rfl

/-- The translation and building stages of `dfa_from_regex` only produce
valid NFAs. -/
theorem bind_postfix_valid {o : Option (List Char)} {n : NFA}
    (h : o.bind postfix_to_nfa = some n) : Valid n := by
  cases o with
  | none => simp at h
  | some pf =>
    rw [Option.some_bind] at h
    exact postfix_to_nfa_valid h

/-- `dfa_from_regex` rewritten as one associated bind chain. -/
theorem dfa_from_regex_eq_bind (r : String) :
    dfa_from_regex r = ((infix_to_postfix_fn r).bind postfix_to_nfa).bind to_dfa := by
  have hdef : dfa_from_regex r =
      (infix_to_postfix_fn r).bind (fun pf => (postfix_to_nfa pf).bind to_dfa) := rfl
  rw [hdef]
  cases infix_to_postfix_fn r with
  | none => rfl
  | some pf => rw [Option.some_bind, Option.some_bind]

/-- Evaluating the full pipeline on a pattern whose translation and NFA
stages succeed: the compiled DFA exists and its `accept` equals the
epsilon-closure simulation of the built NFA. -/
theorem dfa_from_regex_eval (r : String)
    (hsome : ((infix_to_postfix_fn r).bind postfix_to_nfa).isSome = true) :
    ∃ d, dfa_from_regex r = some d ∧
      ∀ s : String, (∀ ch ∈ s.data, ch.toNat < ALPHABET_SIZE) →
        accept d s = some (decide
          ((((infix_to_postfix_fn r).bind postfix_to_nfa).get hsome).final_state ∈
            simRun (((infix_to_postfix_fn r).bind postfix_to_nfa).get hsome) s.data)) := by
  have hn : (infix_to_postfix_fn r).bind postfix_to_nfa =
      some (((infix_to_postfix_fn r).bind postfix_to_nfa).get hsome) :=
    (Option.some_get hsome).symm
  have hv := bind_postfix_valid hn
  obtain ⟨d, hd, hacc⟩ := accept_to_dfa hv
  refine ⟨d, ?_, hacc⟩
  rw [dfa_from_regex_eq_bind, hn, Option.some_bind]
  exact hd

end Regex

namespace Regex

/-! ### The claims -/

/-- C1: For every NFA produced by the builder and every input string over
the 256-symbol alphabet, the DFA returned by `to_dfa` accepts the string
if and only if the NFA accepts it under epsilon-closure simulation (a
state set is accepting iff it contains the NFA's final state). -/
theorem c1_to_dfa_equiv_nfa_sim (pf : List Char) (n : NFA)
    (hn : postfix_to_nfa pf = some n) (s : String)
    (hs : ∀ ch ∈ s.data, ch.toNat < ALPHABET_SIZE) :
    ∃ d, to_dfa n = some d ∧
      ∃ b, accept d s = some b ∧ (b = true ↔ nfaAcceptsSpec n s.data) := by
  have hv := postfix_to_nfa_valid hn
  obtain ⟨d, hd, hacc⟩ := accept_to_dfa hv
  refine ⟨d, hd, decide (n.final_state ∈ simRun n s.data), hacc s hs, ?_⟩
  rw [decide_eq_true_eq]
  exact (nfaAcceptsSpec_iff_simRun hv s.data).symm

/-- C1 witness: the pattern consisting of the single literal `a`. -/
theorem c1_witness : ∃ d, to_dfa (single_char_nfa 'a') = some d ∧
    ∃ b, accept d "a" = some b ∧
      (b = true ↔ nfaAcceptsSpec (single_char_nfa 'a') "a".data) :=
  c1_to_dfa_equiv_nfa_sim ['a'] (single_char_nfa 'a') rfl "a" (by decide)

set_option maxHeartbeats 4000000 in
/-- C2: Compiling the pattern `(a|b)*abb` yields a DFA accepting `aabb`
and `abb` and rejecting `ab`, `aa`, `bba`, `abab` and the empty string. -/
theorem c2_reference_pattern :
    ∃ d, dfa_from_regex "(a|b)*abb" = some d ∧
      accept d "aabb" = some true ∧ accept d "abb" = some true ∧
      accept d "ab" = some false ∧ accept d "aa" = some false ∧
      accept d "bba" = some false ∧ accept d "abab" = some false ∧
      accept d "" = some false := by
  obtain ⟨d, hdfa, hacc⟩ := dfa_from_regex_eval "(a|b)*abb" (by decide)
  exact ⟨d, hdfa,
    (hacc "aabb" (by decide)).trans (by decide),
    (hacc "abb" (by decide)).trans (by decide),
    (hacc "ab" (by decide)).trans (by decide),
    (hacc "aa" (by decide)).trans (by decide),
    (hacc "bba" (by decide)).trans (by decide),
    (hacc "abab" (by decide)).trans (by decide),
    (hacc "" (by decide)).trans (by decide)⟩

set_option maxHeartbeats 4000000 in
/-- C3 evidence: the code does not produce a `MalformedRegex` value for
the patterns `(`, `)`, `*a`, `""`; it raises `IndexError` (modelled
`none`) for `""` (in `preprocess`), for `)` (empty-stack pop inside
`infix_to_postfix`), and for `*a` (empty-stack access inside
`postfix_to_nfa`, i.e. after translation), while `(` compiles without any
error to a DFA that accepts the one-character string `(`. -/
theorem c3_malformed_behavior :
    preprocess ([] : List Char) = none ∧
    dfa_from_regex "" = none ∧
    infix_to_postfix_fn ")" = none ∧
    dfa_from_regex ")" = none ∧
    infix_to_postfix_fn "*a" = some ['*', 'a', '.'] ∧
    postfix_to_nfa ['*', 'a', '.'] = none ∧
    dfa_from_regex "*a" = none ∧
    (∃ d, dfa_from_regex "(" = some d ∧
      accept d "(" = some true ∧ accept d "" = some false) := by
  refine ⟨rfl, rfl, rfl, rfl, rfl, rfl, rfl, ?_⟩
  obtain ⟨d, hdfa, hacc⟩ := dfa_from_regex_eval "(" (by decide)
  exact ⟨d, hdfa,
    (hacc "(" (by decide)).trans (by decide),
    (hacc "" (by decide)).trans (by decide)⟩

/-- C4: For every DFA produced by `to_dfa` from a valid NFA the
transition table is total: one row per state, 256 entries per row, every
entry a state index below `num_states`; and when the empty NFA-state-set
is discovered it is a self-looping, non-accepting dead state. -/
theorem c4_totality (n : NFA) (hv : Valid n) :
    ∃ d, to_dfa n = some d ∧
      d.delta.length = d.num_states ∧
      (∀ row ∈ d.delta, row.length = ALPHABET_SIZE) ∧
      (∀ row ∈ d.delta, ∀ j ∈ row, j < d.num_states) ∧
      (∀ m, toDfaLoop n (toDfaFuel n) [epsilon_closure n n.start_state] [] = some m →
        ([] : List Nat) ∈ m →
          idxOf m [] < d.num_states ∧
          (∀ c, c < ALPHABET_SIZE →
            d.delta[idxOf m ([] : List Nat)]?.bind (fun row => row[c]?) =
              some (idxOf m [])) ∧
          idxOf m ([] : List Nat) ∉ d.final_states) := by
  obtain ⟨d, m, hd, hm, hnum, hdelta, hstart0, hfinal, hhead, hnd, hclosed⟩ := to_dfa_shape hv
  refine ⟨d, hd, ?_, ?_, ?_, ?_⟩
  · rw [hdelta, List.length_map, hnum]
  · intro row hrow
    rw [hdelta] at hrow
    rcases List.mem_map.mp hrow with ⟨S, hS, rfl⟩
    rw [List.length_map, List.length_range]
  · intro row hrow j hj
    rw [hdelta] at hrow
    rcases List.mem_map.mp hrow with ⟨S, hS, rfl⟩
    rcases List.mem_map.mp hj with ⟨c, hc, rfl⟩
    rw [List.mem_range] at hc
    rw [hnum]
    exact idxOf_lt_length (hclosed S hS c hc)
  · intro m' hm' hempty
    rw [hm] at hm'
    cases hm'
    refine ⟨?_, ?_, ?_⟩
    · rw [hnum]
      exact idxOf_lt_length hempty
    · intro c hc
      rw [hdelta, List.getElem?_map, getElem?_idxOf hempty]
      simp only [Option.map_some', Option.some_bind]
      rw [List.getElem?_map, List.getElem?_range hc]
      rfl
    · rw [hfinal]
      intro hmem
      rw [List.mem_filter] at hmem
      have hget : m.getD (idxOf m ([] : List Nat)) [] = [] := by
        rw [List.getD_eq_getElem?_getD, getElem?_idxOf hempty]
        rfl
      have := of_decide_eq_true hmem.2
      rw [hget] at this
      simp at this

/-- C4 witness: the NFA for the single literal `a`. -/
theorem c4_witness : ∃ d, to_dfa (single_char_nfa 'a') = some d ∧
    d.delta.length = d.num_states ∧
    (∀ row ∈ d.delta, row.length = ALPHABET_SIZE) ∧
    (∀ row ∈ d.delta, ∀ j ∈ row, j < d.num_states) ∧
    (∀ m, toDfaLoop (single_char_nfa 'a') (toDfaFuel (single_char_nfa 'a'))
        [epsilon_closure (single_char_nfa 'a') (single_char_nfa 'a').start_state] [] = some m →
      ([] : List Nat) ∈ m →
        idxOf m [] < d.num_states ∧
        (∀ c, c < ALPHABET_SIZE →
          d.delta[idxOf m ([] : List Nat)]?.bind (fun row => row[c]?) =
            some (idxOf m [])) ∧
        idxOf m ([] : List Nat) ∉ d.final_states) :=
  c4_totality (single_char_nfa 'a') (valid_single_char 'a')

set_option maxHeartbeats 4000000 in
/-- C5: On a `*` token the builder keeps the state count and start state,
adds exactly one epsilon transition from the final state to the start
state, and makes the start state the new final state; and the compiled
DFA for the pattern `a*` accepts the empty string. -/
theorem c5_kleene_star :
    (∀ n : NFA, Valid n →
      (kleene_star n).num_states = n.num_states ∧
      (kleene_star n).start_state = n.start_state ∧
      (kleene_star n).final_state = n.start_state ∧
      (∀ q c x, x ∈ deltaSet (kleene_star n) q c ↔
        (x ∈ deltaSet n q c ∨
          (q = n.final_state ∧ c = ALPHABET_SIZE ∧ x = n.start_state)))) ∧
    (∃ d, dfa_from_regex "a*" = some d ∧ accept d "" = some true) := by
  constructor
  · intro n hv
    exact ⟨rfl, rfl, rfl, deltaSet_kleene_star hv⟩
  · obtain ⟨d, hdfa, hacc⟩ := dfa_from_regex_eval "a*" (by decide)
    exact ⟨d, hdfa, (hacc "" (by decide)).trans (by decide)⟩

/-- C5 witness: the star of the single-character NFA for `a`. -/
theorem c5_witness :
    (kleene_star (single_char_nfa 'a')).num_states = (single_char_nfa 'a').num_states ∧
    (kleene_star (single_char_nfa 'a')).start_state = (single_char_nfa 'a').start_state ∧
    (kleene_star (single_char_nfa 'a')).final_state = (single_char_nfa 'a').start_state ∧
    (∀ q c x, x ∈ deltaSet (kleene_star (single_char_nfa 'a')) q c ↔
      (x ∈ deltaSet (single_char_nfa 'a') q c ∨
        (q = (single_char_nfa 'a').final_state ∧ c = ALPHABET_SIZE ∧
          x = (single_char_nfa 'a').start_state))) :=
  c5_kleene_star.1 (single_char_nfa 'a') (valid_single_char 'a')

/-- C6: On a `|` token the builder appends B's table after A's with all of
B's state indices offset by `A.num_states`, adds an epsilon transition
from A's start to B's offset start and from A's final to B's offset
final, keeps A's start state, and makes B's offset final state the new
final state. -/
theorem c6_union (a b : NFA) (hva : Valid a) (hvb : Valid b) :
    (union a b).num_states = a.num_states + b.num_states ∧
    (union a b).start_state = a.start_state ∧
    (union a b).final_state = a.num_states + b.final_state ∧
    (union a b).delta.length = a.num_states + b.num_states ∧
    (∀ q c x, x ∈ deltaSet (union a b) q c ↔
      ((q < a.num_states ∧ x ∈ deltaSet a q c) ∨
       (a.num_states ≤ q ∧ q < a.num_states + b.num_states ∧
         ∃ y ∈ deltaSet b (q - a.num_states) c, x = y + a.num_states) ∨
       (q = a.start_state ∧ c = ALPHABET_SIZE ∧ x = a.num_states + b.start_state) ∨
       (q = a.final_state ∧ c = ALPHABET_SIZE ∧ x = a.num_states + b.final_state))) := by
  refine ⟨rfl, rfl, rfl, ?_, deltaSet_union hva hvb⟩
  show (modifyIdx _ (modifyIdx _ (a.delta ++ b.delta.map (offsetRow a.num_states))
    a.start_state) a.final_state).length = a.num_states + b.num_states
  rw [modifyIdx_length, modifyIdx_length, List.length_append, List.length_map, hva.1, hvb.1]

/-- C6 witness: the union of the single-character NFAs for `a` and `b`. -/
theorem c6_witness :
    (union (single_char_nfa 'a') (single_char_nfa 'b')).num_states =
      (single_char_nfa 'a').num_states + (single_char_nfa 'b').num_states ∧
    (union (single_char_nfa 'a') (single_char_nfa 'b')).start_state =
      (single_char_nfa 'a').start_state ∧
    (union (single_char_nfa 'a') (single_char_nfa 'b')).final_state =
      (single_char_nfa 'a').num_states + (single_char_nfa 'b').final_state ∧
    (union (single_char_nfa 'a') (single_char_nfa 'b')).delta.length =
      (single_char_nfa 'a').num_states + (single_char_nfa 'b').num_states ∧
    (∀ q c x, x ∈ deltaSet (union (single_char_nfa 'a') (single_char_nfa 'b')) q c ↔
      ((q < (single_char_nfa 'a').num_states ∧ x ∈ deltaSet (single_char_nfa 'a') q c) ∨
       ((single_char_nfa 'a').num_states ≤ q ∧
         q < (single_char_nfa 'a').num_states + (single_char_nfa 'b').num_states ∧
         ∃ y ∈ deltaSet (single_char_nfa 'b') (q - (single_char_nfa 'a').num_states) c,
           x = y + (single_char_nfa 'a').num_states) ∨
       (q = (single_char_nfa 'a').start_state ∧ c = ALPHABET_SIZE ∧
         x = (single_char_nfa 'a').num_states + (single_char_nfa 'b').start_state) ∨
       (q = (single_char_nfa 'a').final_state ∧ c = ALPHABET_SIZE ∧
         x = (single_char_nfa 'a').num_states + (single_char_nfa 'b').final_state))) :=
  c6_union (single_char_nfa 'a') (single_char_nfa 'b') (valid_single_char 'a') (valid_single_char 'b')

set_option maxHeartbeats 4000000 in
/-- C7: Compiling the pattern `a|b` yields a DFA that accepts exactly
`a` and `b` among the tested strings and rejects the empty string, `ab`
and `c`. -/
theorem c7_union_language :
    ∃ d, dfa_from_regex "a|b" = some d ∧
      accept d "a" = some true ∧ accept d "b" = some true ∧
      accept d "" = some false ∧ accept d "ab" = some false ∧
      accept d "c" = some false := by
  obtain ⟨d, hdfa, hacc⟩ := dfa_from_regex_eval "a|b" (by decide)
  exact ⟨d, hdfa,
    (hacc "a" (by decide)).trans (by decide),
    (hacc "b" (by decide)).trans (by decide),
    (hacc "" (by decide)).trans (by decide),
    (hacc "ab" (by decide)).trans (by decide),
    (hacc "c" (by decide)).trans (by decide)⟩

/-- C8: For every non-empty pattern, preprocessing keeps the first
character and inserts `.` between adjacent characters `A B` exactly when
`B` is none of `)` `|` `*` and `A` is neither `|` nor `(`; the original
characters stay in order (the input is a sublist of the output). -/
theorem c8_preprocess (a : Char) (l : List Char) :
    preprocess (a :: l) = some (a :: preSpec a l) ∧
    (a :: l).Sublist (a :: preSpec a l) := by
  constructor
  · show some (a :: preprocessAux a l) = _
    rw [preprocessAux_eq_preSpec]
  · exact List.Sublist.cons₂ _ (sublist_preSpec a l)

/-- C8 witness: the two-character pattern `ab`. -/
theorem c8_witness :
    preprocess ('a' :: ['b']) = some ('a' :: preSpec 'a' ['b']) ∧
    ('a' :: ['b']).Sublist ('a' :: preSpec 'a' ['b']) :=
  c8_preprocess 'a' ['b']

/-- C9: Every NFA combinator preserves the validity invariant: the
primitive NFA is valid, and star, concatenation and union of valid NFAs
are valid (one start and one final state below `num_states`, every index
in the table below `num_states`). -/
theorem c9_invariants :
    (∀ c : Char, Valid (single_char_nfa c)) ∧
    (∀ n : NFA, Valid n → Valid (kleene_star n)) ∧
    (∀ a b : NFA, Valid a → Valid b → Valid (concatenate a b)) ∧
    (∀ a b : NFA, Valid a → Valid b → Valid (union a b)) :=
  ⟨valid_single_char, fun _ h => valid_kleene_star h,
    fun _ _ ha hb => valid_concatenate ha hb, fun _ _ ha hb => valid_union ha hb⟩

/-- C9 witness: the union of the primitive NFAs for `a` and `b` is
valid. -/
theorem c9_witness : Valid (union (single_char_nfa 'a') (single_char_nfa 'b')) :=
  c9_invariants.2.2.2 (single_char_nfa 'a') (single_char_nfa 'b') (valid_single_char 'a') (valid_single_char 'b')

/-- C10: For every DFA compiled from a valid NFA, `accept` returns a
boolean on any string whose code points are all below 256, and returns no
value (the out-of-range table lookup, a raised `IndexError`) on any
string containing a code point of 256 or more. -/
theorem c10_accept_partiality (n : NFA) (hv : Valid n) :
    ∃ d, to_dfa n = some d ∧
      (∀ s : String, (∀ ch ∈ s.data, ch.toNat < ALPHABET_SIZE) →
        ∃ b, accept d s = some b) ∧
      (∀ s : String, (∃ ch ∈ s.data, ALPHABET_SIZE ≤ ch.toNat) →
        accept d s = none) := by
  obtain ⟨d, hd, hsome⟩ := accept_to_dfa hv
  obtain ⟨d', hd', hnone⟩ := accept_none_of_big hv
  have hdd : d' = d := by
    rw [hd] at hd'
    exact (Option.some_inj.mp hd').symm
  rw [hdd] at hnone
  exact ⟨d, hd, fun s hs => ⟨_, hsome s hs⟩, hnone⟩

/-- C10 witness: the NFA for the single literal `a`. -/
theorem c10_witness : ∃ d, to_dfa (single_char_nfa 'a') = some d ∧
    (∀ s : String, (∀ ch ∈ s.data, ch.toNat < ALPHABET_SIZE) →
      ∃ b, accept d s = some b) ∧
    (∀ s : String, (∃ ch ∈ s.data, ALPHABET_SIZE ≤ ch.toNat) →
      accept d s = none) :=
  c10_accept_partiality (single_char_nfa 'a') (valid_single_char 'a')

end Regex
